import Mathlib

/-!
Verification development for the document diff & alignment engine of
`Compare-Revisions-2.0` (`src/app.py`).

Texts are modelled as `List Char` (Python `str`).  The helper functions
`normalize_text`, `remove_attending_review_line`, `calculate_change_percentage`,
`split_into_paragraphs` and `create_diff_by_section` are translated from
`src/app.py` (lines 526-608).  The engine delegates sequence alignment to
CPython's `difflib.SequenceMatcher`; that library is embedded here as well
(`findLongestMatch`, `matchingBlocks`, `getOpcodes`, `ratioQ`), faithful to
CPython's algorithm with two documented deviations:

* the `autojunk` popularity heuristic (which only affects sequences of 200 or
  more elements) is not modelled;
* `find_longest_match` is expressed as the equivalent explicit maximisation
  (longest matching block, ties broken by earliest start in `a`, then earliest
  start in `b`) rather than via the `j2len` dynamic-programming dictionary;
  both compute the same triple.

Whitespace classification (`isPySpace`) is the full set of code points for
which Python's `str.isspace()` holds (the set used by `str.split()` and
`str.strip()`), and `splitlinesFn` recognises the full set of `str.splitlines`
line boundaries (`\r\n`, `\r`, `\n`, `\x0b`, `\x0c`, `\x1c`-`\x1e`, U+0085,
U+2028, U+2029).  Arithmetic on similarity ratios uses exact rationals where
CPython uses IEEE doubles; the claims under study only compare ratios far from
representation boundaries, where the two agree.
-/

/-! ### Basic text utilities -/

/-- The whitespace characters of Python's `str.split()`, `str.strip()` and
friends: exactly the code points for which `str.isspace()` holds
(U+0009-U+000D, U+001C-U+001F, U+0020, U+0085, U+00A0, U+1680,
U+2000-U+200A, U+2028, U+2029, U+202F, U+205F, U+3000). -/
def isPySpace (c : Char) : Bool :=
  match c with
  | ' ' | '\t' | '\n' | '\r' | '\x0b' | '\x0c'
  | '\x1c' | '\x1d' | '\x1e' | '\x1f' | '\x85' | '\xa0'
  | '\u1680' | '\u2000' | '\u2001' | '\u2002' | '\u2003' | '\u2004'
  | '\u2005' | '\u2006' | '\u2007' | '\u2008' | '\u2009' | '\u200a'
  | '\u2028' | '\u2029' | '\u202f' | '\u205f' | '\u3000' => true
  | _ => false

/-- Python `str.rstrip()`. -/
def pyRstrip (l : List Char) : List Char :=
  (l.reverse.dropWhile isPySpace).reverse

/-- Python `str.strip()`. -/
def pyStrip (l : List Char) : List Char :=
  pyRstrip (l.dropWhile isPySpace)

/-- Python `str.strip("\n")`: strips only newline characters from both ends. -/
def stripNewlines (l : List Char) : List Char :=
  ((l.dropWhile (· == '\n')).reverse.dropWhile (· == '\n')).reverse

/-- `text.replace('\r\n', '\n').replace('\r', '\n')`: both replaces together
amount to this single left-to-right pass. -/
def crlfToLf : List Char → List Char
| [] => []
| '\r' :: '\n' :: r => '\n' :: crlfToLf r
| '\r' :: r => '\n' :: crlfToLf r
| c :: r => c :: crlfToLf r

/-- Helper for `splitlinesFn`: prepend a character to the first line of an
already-split tail (opening a line if none exists). -/
def consLine (c : Char) : List (List Char) → List (List Char)
| [] => [[c]]
| l :: ls => (c :: l) :: ls

/-- The line-boundary characters of Python's `str.splitlines()` other than
`\r` and `\n`: `\x0b`, `\x0c`, `\x1c`, `\x1d`, `\x1e`, U+0085, U+2028,
U+2029 (each breaks a line on its own; `\r\n` is additionally consumed as a
single boundary). -/
def isExoticBreak (c : Char) : Bool :=
  match c with
  | '\x0b' | '\x0c' | '\x1c' | '\x1d' | '\x1e' | '\x85' | '\u2028' | '\u2029' => true
  | _ => false

/-- Python `str.splitlines()`, with its full set of line boundaries
(`\r\n`, `\r`, `\n` and the characters of `isExoticBreak`; no trailing empty
line for a terminator-final string). -/
def splitlinesFn : List Char → List (List Char)
| [] => []
| '\r' :: '\n' :: r => [] :: splitlinesFn r
| '\r' :: r => [] :: splitlinesFn r
| '\n' :: r => [] :: splitlinesFn r
| c :: r =>
    if isExoticBreak c then [] :: splitlinesFn r
    else consLine c (splitlinesFn r)

/-- Python `str.split()` (split on whitespace runs, dropping empty tokens);
`app.py` uses it on raw report texts in `calculate_change_percentage` and on
paragraphs for word-level diffing. -/
def pyWords : List Char → List (List Char)
| [] => []
| c :: r =>
  if isPySpace c then pyWords r
  else
    match r with
    | [] => [[c]]
    | c2 :: _ =>
      if isPySpace c2 then [c] :: pyWords r
      else
        match pyWords r with
        | [] => [[c]]
        | w :: ws => (c :: w) :: ws

/-- `normalize_text` from `src/app.py` lines 526-534. -/
def normalize_text (t : List Char) : List Char :=
  if t = [] then []
  else stripNewlines (List.intercalate ['\n'] (((crlfToLf t).splitOn '\n').map pyRstrip))

/-- The two hard-coded attestation literals of `remove_attending_review_line`
(`src/app.py` lines 537-540). -/
def excludedLines : List (List Char) :=
  [("As the attending physician, I have personally reviewed the images, interpreted and/or supervised the study or procedure, and agree with the wording of the above report.").data,
   ("As the Attending radiologist, I have personally reviewed the images, interpreted the study, and agree with the wording of the above report by Sterling M. Jones").data]

/-- `remove_attending_review_line` from `src/app.py` lines 536-541. -/
def remove_attending_review_line (t : List Char) : List Char :=
  List.intercalate ['\n']
    ((splitlinesFn t).filter (fun l => !(excludedLines.contains (pyStrip l))))

/-- A line consisting of whitespace only (used to characterise the blank-line
separators matched by the regex `\n\s*\n+`). -/
def wsOnly (l : List Char) : Bool := l.all isPySpace

/-- Group the `\n`-separated lines of a text into the maximal runs of
non-whitespace-only lines.  Together with the per-fragment `strip` and the
non-empty filter below, this computes exactly the result of
`re.split(r'\n\s*\n+', text)`: each regex match starts at a newline and,
after greedy backtracking, extends through the last newline of the following
whitespace run, so the kept fragments are precisely these line runs (up to
surrounding whitespace, which `strip` removes either way). -/
def lineGroups : List (List Char) → List (List (List Char))
| [] => []
| l :: ls =>
  if wsOnly l then lineGroups ls
  else
    match ls with
    | [] => [[l]]
    | l2 :: _ =>
      if wsOnly l2 then [l] :: lineGroups ls
      else
        match lineGroups ls with
        | [] => [[l]]
        | g :: gs => (l :: g) :: gs

/-- `split_into_paragraphs` from `src/app.py` lines 547-549
(`re.split(r'\n\s*\n+', text)`, then strip, then drop empties). -/
def split_into_paragraphs (t : List Char) : List (List Char) :=
  ((lineGroups (t.splitOn '\n')).map (fun g => pyStrip (List.intercalate ['\n'] g))).filter
    (fun p => !p.isEmpty)

/-! ### difflib.SequenceMatcher (no junk: see header note) -/

section Matcher

variable {α : Type} [DecidableEq α]

/-- Length of the longest common prefix of two lists: the length of the
matching diagonal run starting at a given pair of positions. -/
def cpl : List α → List α → ℕ
| x :: xs, y :: ys => if x = y then cpl xs ys + 1 else 0
| _, _ => 0

/-- Inner loop of `find_longest_match`: scan the candidate `b`-starts `js`
for a fixed `a`-start `i`, keeping the best `(i, j, size)` seen so far.  A
tail-recursive worker that destructures the accumulator at every step (so
that evaluation keeps the accumulator in normal form); `flmInner_eq_foldl`
identifies it with the corresponding `foldl`. -/
def flmInner (a b : List α) (ahi bhi i : ℕ) : List ℕ → ℕ × ℕ × ℕ → ℕ × ℕ × ℕ
| [], best => best
| j :: js, (bi, bj, bk) =>
    if bk < min (cpl (a.drop i) (b.drop j)) (min (ahi - i) (bhi - j)) then
      flmInner a b ahi bhi i js (i, j, min (cpl (a.drop i) (b.drop j)) (min (ahi - i) (bhi - j)))
    else flmInner a b ahi bhi i js (bi, bj, bk)

/-- Outer loop of `find_longest_match` over the candidate `a`-starts. -/
def flmOuter (a b : List α) (ahi blo bhi : ℕ) : List ℕ → ℕ × ℕ × ℕ → ℕ × ℕ × ℕ
| [], best => best
| i :: is, (bi, bj, bk) =>
    flmOuter a b ahi blo bhi is
      (flmInner a b ahi bhi i (List.range' blo (bhi - blo)) (bi, bj, bk))

/-- `SequenceMatcher.find_longest_match(alo, ahi, blo, bhi)`: the longest
block `a[i:i+k] == b[j:j+k]` with `alo <= i <= i+k <= ahi` and
`blo <= j <= j+k <= bhi`; of all maximal blocks, the one starting earliest in
`a` and, among those, earliest in `b`.  `(alo, blo, 0)` if there is no match.
`findLongestMatch_eq_foldl` restates it as a nested fold over the candidate
grid. -/
def findLongestMatch (a b : List α) (alo ahi blo bhi : ℕ) : ℕ × ℕ × ℕ :=
  flmOuter a b ahi blo bhi (List.range' alo (ahi - alo)) (alo, blo, 0)

/-- The recursive core of `SequenceMatcher.get_matching_blocks`: repeatedly
find the longest match and recurse on the windows to its left and right.
The fuel argument makes the recursion structural; `(ahi - alo) + (bhi - blo)`
strictly decreases at every recursive call, so any fuel of at least
`a.length + b.length + 1` computes the full block list. -/
def rawBlocks (a b : List α) : ℕ → ℕ → ℕ → ℕ → ℕ → List (ℕ × ℕ × ℕ)
| 0, _, _, _, _ => []
| fuel + 1, alo, ahi, blo, bhi =>
  let m := findLongestMatch a b alo ahi blo bhi
  if m.2.2 = 0 then []
  else rawBlocks a b fuel alo m.1 blo m.2.1 ++ m :: rawBlocks a b fuel (m.1 + m.2.2) ahi (m.2.1 + m.2.2) bhi

/-- The adjacent-block merging loop at the end of
`SequenceMatcher.get_matching_blocks` (`non_adjacent`). -/
def mergeScan : ℕ × ℕ × ℕ → List (ℕ × ℕ × ℕ) → List (ℕ × ℕ × ℕ)
| cur, [] => if cur.2.2 = 0 then [] else [cur]
| cur, blk :: rest =>
  if cur.1 + cur.2.2 = blk.1 ∧ cur.2.1 + cur.2.2 = blk.2.1 then
    mergeScan (cur.1, cur.2.1, cur.2.2 + blk.2.2) rest
  else if cur.2.2 = 0 then mergeScan blk rest
  else cur :: mergeScan blk rest

/-- `SequenceMatcher.get_matching_blocks`: merged blocks followed by the
sentinel `(len(a), len(b), 0)`. -/
def matchingBlocks (a b : List α) : List (ℕ × ℕ × ℕ) :=
  mergeScan (0, 0, 0) (rawBlocks a b (a.length + b.length + 1) 0 a.length 0 b.length)
    ++ [(a.length, b.length, 0)]

/-- The tag of a difflib opcode. -/
inductive DiffTag : Type
| equal : DiffTag
| replace : DiffTag
| delete : DiffTag
| insert : DiffTag
deriving DecidableEq, Repr

/-- One difflib opcode `(tag, a1, a2, b1, b2)`. -/
structure Opcode : Type where
  tag : DiffTag
  a1 : ℕ
  a2 : ℕ
  b1 : ℕ
  b2 : ℕ
deriving DecidableEq, Repr

/-- The loop body of `SequenceMatcher.get_opcodes`, walking the matching
blocks with the cursor `(i, j)`. -/
def opcodesFrom : ℕ → ℕ → List (ℕ × ℕ × ℕ) → List Opcode
| _, _, [] => []
| i, j, blk :: rest =>
  (if i < blk.1 ∧ j < blk.2.1 then [⟨DiffTag.replace, i, blk.1, j, blk.2.1⟩]
   else if i < blk.1 then [⟨DiffTag.delete, i, blk.1, j, blk.2.1⟩]
   else if j < blk.2.1 then [⟨DiffTag.insert, i, blk.1, j, blk.2.1⟩]
   else [])
  ++ (if blk.2.2 = 0 then [] else
      [⟨DiffTag.equal, blk.1, blk.1 + blk.2.2, blk.2.1, blk.2.1 + blk.2.2⟩])
  ++ opcodesFrom (blk.1 + blk.2.2) (blk.2.1 + blk.2.2) rest

/-- `SequenceMatcher.get_opcodes`. -/
def getOpcodes (a b : List α) : List Opcode :=
  opcodesFrom 0 0 (matchingBlocks a b)

/-- `M`: the sum of the sizes of all matching blocks. -/
def matchesTotal (a b : List α) : ℕ :=
  ((matchingBlocks a b).map (fun t => t.2.2)).sum

/-- `SequenceMatcher.ratio()` as an exact rational: `2*M / (len(a)+len(b))`,
and `1` when both sequences are empty. -/
def ratioQ (a b : List α) : ℚ :=
  if a.length + b.length = 0 then 1
  else (2 * (matchesTotal a b : ℚ)) / ((a.length : ℚ) + (b.length : ℚ))

end Matcher

/-! ### Change percentage -/

/-- Round-half-to-even to an integer, the rounding used by Python's `round`. -/
def roundHalfEven (x : ℚ) : ℤ :=
  if x - (⌊x⌋ : ℚ) < 1/2 then ⌊x⌋
  else if (1/2 : ℚ) < x - (⌊x⌋ : ℚ) then ⌊x⌋ + 1
  else if ⌊x⌋ % 2 = 0 then ⌊x⌋ else ⌊x⌋ + 1

/-- Python `round(x, 2)` on an exact rational. -/
def round2 (x : ℚ) : ℚ := ((roundHalfEven (x * 100) : ℚ)) / 100

/-- Round-half-to-even of the fraction `n / d` (`0 < d`), computed with
integer arithmetic only (rational arithmetic is not kernel-reducible here).
`roundHalfEven_frac` below proves it equal to `roundHalfEven ((n : ℚ) / d)`. -/
def rheFrac (n : ℤ) (d : ℕ) : ℤ :=
  if 2 * (n - n.fdiv (d : ℤ) * (d : ℤ)) < (d : ℤ) then n.fdiv (d : ℤ)
  else if (d : ℤ) < 2 * (n - n.fdiv (d : ℤ) * (d : ℤ)) then n.fdiv (d : ℤ) + 1
  else if n.fdiv (d : ℤ) % 2 = 0 then n.fdiv (d : ℤ) else n.fdiv (d : ℤ) + 1

/-- `calculate_change_percentage` from `src/app.py` lines 543-545:
`round((1 - SequenceMatcher(None, r.split(), a.split()).ratio()) * 100, 2)`.
With `M` the matched-token total and `T` the total token count, the value
`(1 - ratio) * 100` is the fraction `(T - 2M) * 100 / T` (and `0` when
`T = 0`, where `ratio()` is `1.0` by convention); the theorem
`calculate_change_percentage_spec` below proves this definition equal to
`round2 ((1 - ratioQ ...) * 100)`. -/
def calculate_change_percentage (r a : List Char) : ℚ :=
  ((rheFrac (((((pyWords r).length + (pyWords a).length : ℕ) : ℤ)
        - 2 * (matchesTotal (pyWords r) (pyWords a) : ℤ)) * 10000)
      ((pyWords r).length + (pyWords a).length) : ℚ)) / 100

/-- The percentage actually attached to a case by `extract_cases`
(`src/app.py` line 739): the attending text goes through
`remove_attending_review_line` first, the resident text does not. -/
def case_change_percentage (r a : List Char) : ℚ :=
  calculate_change_percentage r (remove_attending_review_line a)

/-! ### HTML rendering (`create_diff_by_section`) -/

/-- One character of Python `html.escape` (with the default `quote=True`).
The sequential `str.replace` calls of the library function (`&` first) are
equivalent to this single per-character map. -/
def escapeChar : Char → List Char
| '&' => ("&amp;").data
| '<' => ("&lt;").data
| '>' => ("&gt;").data
| '"' => ("&quot;").data
| '\'' => ("&#x27;").data
| c => [c]

/-- Python `html.escape` (default `quote=True`). -/
def htmlEscape (l : List Char) : List Char := (l.map escapeChar).flatten

/-- `f'<div class="para {cls}">{inner}</div>'`. -/
def paraDiv (cls inner : List Char) : List Char :=
  ("<div class=\"para ").data ++ cls ++ ("\">").data ++ inner ++ ("</div>").data

/-- `f'<span class="word {cls}">{inner}</span>'`. -/
def wordSpan (cls inner : List Char) : List Char :=
  ("<span class=\"word ").data ++ cls ++ ("\">").data ++ inner ++ ("</span>").data

/-- Python slice `l[i:j]` (for `0 <= i <= j`). -/
def pySlice (l : List α) (i j : ℕ) : List α := (l.drop i).take (j - i)

/-- One entry of the `seg` list in the word-level loop of
`create_diff_by_section` (`src/app.py` lines 589-602). -/
def renderWordOp (rw aw : List (List Char)) (op : Opcode) : List Char :=
  match op.tag with
  | DiffTag.equal => htmlEscape (List.intercalate [' '] (pySlice rw op.a1 op.a2))
  | DiffTag.replace =>
      wordSpan (("del").data) (htmlEscape (List.intercalate [' '] (pySlice rw op.a1 op.a2)))
      ++ [' ']
      ++ wordSpan (("ins").data) (htmlEscape (List.intercalate [' '] (pySlice aw op.b1 op.b2)))
  | DiffTag.delete => wordSpan (("del").data) (htmlEscape (List.intercalate [' '] (pySlice rw op.a1 op.a2)))
  | DiffTag.insert => wordSpan (("ins").data) (htmlEscape (List.intercalate [' '] (pySlice aw op.b1 op.b2)))

/-- The body of the `for idx in range(max_len)` loop in the `replace` branch
of `create_diff_by_section` (`src/app.py` lines 574-607).  `res.getD idx []`
models `res_paragraphs[idx] if idx < len(res_paragraphs) else None`: Python's
truthiness test treats `None` and the empty string alike, so the out-of-range
`None` and an empty paragraph coincide in this model.  The guard
`5 * M < len(rp) + len(ap)` is the character-level similarity gate
`SequenceMatcher(None, rp, ap).ratio() < 0.4` written with integer
arithmetic (`2M / T < 2/5  iff  5M < T`); `similarityGate_iff` below proves
the two forms equivalent. -/
def renderReplacePair (res att : List (List Char)) (idx : ℕ) : List Char :=
  let rp := res.getD idx []
  let ap := att.getD idx []
  if rp ≠ [] ∧ ap ≠ [] then
    if 5 * matchesTotal rp ap < rp.length + ap.length then
      paraDiv (("del").data) (htmlEscape rp) ++ paraDiv (("ins").data) (htmlEscape ap)
    else
      let rw := pyWords rp
      let aw := pyWords ap
      paraDiv (("rep").data)
        (List.intercalate [' '] ((getOpcodes rw aw).map (renderWordOp rw aw)))
  else if rp ≠ [] then paraDiv (("del").data) (htmlEscape rp)
  else if ap ≠ [] then paraDiv (("ins").data) (htmlEscape ap)
  else []

/-- The whole `replace` branch of `create_diff_by_section`: positional pairs
`idx = 0, ..., max(len(res), len(att)) - 1`. -/
def renderReplaceRun (res att : List (List Char)) : List Char :=
  ((List.range (max res.length att.length)).map (renderReplacePair res att)).flatten

/-- The rendering of one paragraph-level opcode (`src/app.py` lines 559-607). -/
def renderOpcode (rp ap : List (List Char)) (op : Opcode) : List Char :=
  match op.tag with
  | DiffTag.equal =>
      ((pySlice rp op.a1 op.a2).map (fun p => paraDiv (("equal").data) (htmlEscape p))).flatten
  | DiffTag.insert =>
      ((pySlice ap op.b1 op.b2).map (fun p => paraDiv (("ins").data) (htmlEscape p))).flatten
  | DiffTag.delete =>
      ((pySlice rp op.a1 op.a2).map (fun p => paraDiv (("del").data) (htmlEscape p))).flatten
  | DiffTag.replace =>
      renderReplaceRun (pySlice rp op.a1 op.a2) (pySlice ap op.b1 op.b2)

/-- The resident-side paragraph sequence used by `create_diff_by_section`. -/
def residentParagraphs (r : List Char) : List (List Char) :=
  split_into_paragraphs (normalize_text r)

/-- The attending-side paragraph sequence used by `create_diff_by_section`
(note the attending text, and only it, passes `remove_attending_review_line`
first). -/
def attendingParagraphs (a : List Char) : List (List Char) :=
  split_into_paragraphs (normalize_text (remove_attending_review_line a))

/-- The paragraph-level opcode list computed inside `create_diff_by_section`
(`difflib.SequenceMatcher(None, resident_paragraphs, attending_paragraphs)`). -/
def sectionOpcodes (r a : List Char) : List Opcode :=
  getOpcodes (residentParagraphs r) (attendingParagraphs a)

/-- `create_diff_by_section` from `src/app.py` lines 551-608. -/
def create_diff_by_section (r a : List Char) : List Char :=
  ((sectionOpcodes r a).map (renderOpcode (residentParagraphs r) (attendingParagraphs a))).flatten

/-- A block list forms a chain starting no earlier than `(x, y)` and ending
no later than `(r, s)`: consecutive blocks do not overlap and stay in order
on both sides. -/
def BChain : ℕ → ℕ → ℕ → ℕ → List (ℕ × ℕ × ℕ) → Prop
| x, y, r, s, [] => x ≤ r ∧ y ≤ s
| x, y, r, s, blk :: rest =>
  x ≤ blk.1 ∧ y ≤ blk.2.1 ∧ BChain (blk.1 + blk.2.2) (blk.2.1 + blk.2.2) r s rest

/-- Cursor position on the `a` side after walking a block list. -/
def endA : ℕ → List (ℕ × ℕ × ℕ) → ℕ
| i, [] => i
| _, blk :: rest => endA (blk.1 + blk.2.2) rest

/-- Cursor position on the `b` side after walking a block list. -/
def endB : ℕ → List (ℕ × ℕ × ℕ) → ℕ
| j, [] => j
| _, blk :: rest => endB (blk.2.1 + blk.2.2) rest

/-- The `a`-side indices covered by an opcode list, in order. -/
def aIndices (ops : List Opcode) : List ℕ :=
  (ops.map (fun op => List.range' op.a1 (op.a2 - op.a1))).flatten

/-- The `b`-side indices covered by an opcode list, in order. -/
def bIndices (ops : List Opcode) : List ℕ :=
  (ops.map (fun op => List.range' op.b1 (op.b2 - op.b1))).flatten

/-- The only tag openings the renderer ever emits. -/
def tagOpenings : List (List Char) :=
  [("<div ").data, ("</div>").data, ("<span ").data, ("</span>").data]

/-- Every occurrence of `<` in `s` is the start of one of the four fixed
template tags; in particular no input-derived text can open a tag. -/
def tagOk (s : List Char) : Prop :=
  ∀ i, i < s.length → (s.drop i).head? = some '<' →
    ∃ u ∈ tagOpenings, u <+: s.drop i

/-! ### Equivalence of the integer-arithmetic forms with the rational spec -/

/-- The inner worker is the inner fold of the maximisation. -/
theorem flmInner_eq_foldl {α : Type} [DecidableEq α] (a b : List α) (ahi bhi i : ℕ)
    (js : List ℕ) :
    ∀ best, flmInner a b ahi bhi i js best
      = js.foldl (fun best j =>
          if best.2.2 < min (cpl (a.drop i) (b.drop j)) (min (ahi - i) (bhi - j))
          then (i, j, min (cpl (a.drop i) (b.drop j)) (min (ahi - i) (bhi - j)))
          else best) best := by
  induction js with
  | nil => intro best; rfl
  | cons j js ih =>
      intro best
      obtain ⟨bi, bj, bk⟩ := best
      rw [List.foldl_cons, flmInner]
      simp only []
      by_cases hc : bk < min (cpl (a.drop i) (b.drop j)) (min (ahi - i) (bhi - j))
      · rw [if_pos hc, if_pos hc]
        exact ih _
      · rw [if_neg hc, if_neg hc]
        exact ih _

/-- The outer worker is the outer fold of the maximisation. -/
theorem flmOuter_eq_foldl {α : Type} [DecidableEq α] (a b : List α) (ahi blo bhi : ℕ)
    (is : List ℕ) :
    ∀ best, flmOuter a b ahi blo bhi is best
      = is.foldl (fun best i =>
          (List.range' blo (bhi - blo)).foldl (fun best j =>
            if best.2.2 < min (cpl (a.drop i) (b.drop j)) (min (ahi - i) (bhi - j))
            then (i, j, min (cpl (a.drop i) (b.drop j)) (min (ahi - i) (bhi - j)))
            else best) best) best := by
  induction is with
  | nil => intro best; rfl
  | cons i is ih =>
      intro best
      obtain ⟨bi, bj, bk⟩ := best
      rw [List.foldl_cons, flmOuter, flmInner_eq_foldl]
      exact ih _

/-- `findLongestMatch` as the brute-force maximisation fold over the whole
candidate grid. -/
theorem findLongestMatch_eq_foldl {α : Type} [DecidableEq α] (a b : List α)
    (alo ahi blo bhi : ℕ) :
    findLongestMatch a b alo ahi blo bhi
      = (List.range' alo (ahi - alo)).foldl (fun best i =>
          (List.range' blo (bhi - blo)).foldl (fun best j =>
            if best.2.2 < min (cpl (a.drop i) (b.drop j)) (min (ahi - i) (bhi - j))
            then (i, j, min (cpl (a.drop i) (b.drop j)) (min (ahi - i) (bhi - j)))
            else best) best) (alo, blo, 0) := by
  unfold findLongestMatch
  exact flmOuter_eq_foldl a b ahi blo bhi _ _

/-- The integer similarity gate of `renderReplacePair` is exactly
`SequenceMatcher.ratio() < 0.4`. -/
theorem similarityGate_iff (p q : List Char) :
    (5 * matchesTotal p q < p.length + q.length) ↔ ratioQ p q < 2/5 := by
  unfold ratioQ
  rcases Nat.eq_zero_or_pos (p.length + q.length) with h | h
  · simp only [h, if_pos rfl]
    constructor
    · omega
    · intro hc
      exact absurd hc (by norm_num)
  · rw [if_neg (by omega)]
    have hT : (0 : ℚ) < (p.length : ℚ) + (q.length : ℚ) := by
      have h' : (0 : ℚ) < ((p.length + q.length : ℕ) : ℚ) := by exact_mod_cast h
      push_cast at h'
      linarith
    rw [div_lt_div_iff hT (by norm_num : (0:ℚ) < 5)]
    constructor
    · intro hlt
      have h5 : ((5 * matchesTotal p q : ℕ) : ℚ) < ((p.length + q.length : ℕ) : ℚ) := by
        exact_mod_cast hlt
      push_cast at h5 ⊢
      nlinarith
    · intro hlt
      have h5 : ((5 * matchesTotal p q : ℕ) : ℚ) < ((p.length + q.length : ℕ) : ℚ) := by
        push_cast
        nlinarith
      exact_mod_cast h5

/-- `rheFrac` computes round-half-even of the exact fraction. -/
theorem roundHalfEven_frac (n : ℤ) (d : ℕ) (hd : 0 < d) :
    rheFrac n d = roundHalfEven ((n : ℚ) / (d : ℚ)) := by
  unfold rheFrac roundHalfEven
  have hdq : (0 : ℚ) < (d : ℚ) := by exact_mod_cast hd
  have hfl : ⌊(n : ℚ) / (d : ℚ)⌋ = n.fdiv (d : ℤ) := by
    rw [Rat.floor_intCast_div_natCast, Int.fdiv_eq_ediv _ (by positivity)]
  rw [hfl]
  have hr : (n : ℚ) / (d : ℚ) - ((n.fdiv (d : ℤ) : ℤ) : ℚ)
      = ((n - n.fdiv (d : ℤ) * (d : ℤ) : ℤ) : ℚ) / (d : ℚ) := by
    field_simp
    ring
  rw [hr]
  have hlt1 : (((n - n.fdiv (d : ℤ) * (d : ℤ) : ℤ) : ℚ) / (d : ℚ) < 1/2)
      ↔ (2 * (n - n.fdiv (d : ℤ) * (d : ℤ)) < (d : ℤ)) := by
    rw [div_lt_div_iff hdq (by norm_num : (0:ℚ) < 2)]
    constructor
    · intro hc
      have hc2 : ((2 * (n - n.fdiv (d : ℤ) * (d : ℤ)) : ℤ) : ℚ) < ((d : ℤ) : ℚ) := by
        push_cast at hc ⊢
        linarith
      exact_mod_cast hc2
    · intro hc
      have hc2 : ((2 * (n - n.fdiv (d : ℤ) * (d : ℤ)) : ℤ) : ℚ) < ((d : ℤ) : ℚ) := by
        exact_mod_cast hc
      push_cast at hc2 ⊢
      linarith
  have hlt2 : ((1:ℚ)/2 < ((n - n.fdiv (d : ℤ) * (d : ℤ) : ℤ) : ℚ) / (d : ℚ))
      ↔ ((d : ℤ) < 2 * (n - n.fdiv (d : ℤ) * (d : ℤ))) := by
    rw [div_lt_div_iff (by norm_num : (0:ℚ) < 2) hdq]
    constructor
    · intro hc
      have hc2 : ((d : ℤ) : ℚ) < ((2 * (n - n.fdiv (d : ℤ) * (d : ℤ)) : ℤ) : ℚ) := by
        push_cast at hc ⊢
        linarith
      exact_mod_cast hc2
    · intro hc
      have hc2 : ((d : ℤ) : ℚ) < ((2 * (n - n.fdiv (d : ℤ) * (d : ℤ)) : ℤ) : ℚ) := by
        exact_mod_cast hc
      push_cast at hc2 ⊢
      linarith
  by_cases hc1 : 2 * (n - n.fdiv (d : ℤ) * (d : ℤ)) < (d : ℤ)
  · rw [if_pos hc1, if_pos (hlt1.mpr hc1)]
  · rw [if_neg hc1, if_neg (fun hq => hc1 (hlt1.mp hq))]
    by_cases hc2 : (d : ℤ) < 2 * (n - n.fdiv (d : ℤ) * (d : ℤ))
    · rw [if_pos hc2, if_pos (hlt2.mpr hc2)]
    · rw [if_neg hc2, if_neg (fun hq => hc2 (hlt2.mp hq))]

/-- `calculate_change_percentage` equals the source formula
`round((1 - ratio) * 100, 2)` stated over exact rationals. -/
theorem calculate_change_percentage_spec (r a : List Char) :
    calculate_change_percentage r a
      = round2 ((1 - ratioQ (pyWords r) (pyWords a)) * 100) := by
  unfold calculate_change_percentage round2 ratioQ
  rcases Nat.eq_zero_or_pos ((pyWords r).length + (pyWords a).length) with h | h
  · have h1 : (pyWords r).length = 0 := by omega
    have h2 : (pyWords a).length = 0 := by omega
    have hM : matchesTotal (pyWords r) (pyWords a) = 0 := by
      have hr0 : pyWords r = [] := List.length_eq_zero.mp h1
      have ha0 : pyWords a = [] := List.length_eq_zero.mp h2
      rw [hr0, ha0]
      decide
    rw [h, hM, if_pos rfl]
    have e2 : rheFrac ((((0 : ℕ) : ℤ) - 2 * (((0 : ℕ)) : ℤ)) * 10000) 0 = 0 := by decide
    have e4 : roundHalfEven ((1 - 1) * 100 * 100) = 0 := by
      unfold roundHalfEven
      norm_num
    rw [e2, e4]
  · rw [if_neg (by omega)]
    rw [roundHalfEven_frac _ _ h]
    have hdq : (((pyWords r).length + (pyWords a).length : ℕ) : ℚ) ≠ 0 := by
      have h' : (0 : ℚ) < (((pyWords r).length + (pyWords a).length : ℕ) : ℚ) := by
        exact_mod_cast h
      linarith
    have harg : (((((pyWords r).length + (pyWords a).length : ℕ) : ℤ)
          - 2 * (matchesTotal (pyWords r) (pyWords a) : ℤ)) * 10000 : ℤ) / (((pyWords r).length + (pyWords a).length : ℕ) : ℚ)
        = (1 - 2 * (matchesTotal (pyWords r) (pyWords a) : ℚ)
            / ((pyWords r).length + (pyWords a).length : ℚ)) * 100 * 100 := by
      push_cast at hdq ⊢
      field_simp
      ring
    rw [harg]

/-! ### The partition invariant of `get_opcodes` -/

/-- Invariance of a predicate under `List.foldl`. -/
theorem foldl_invariant {β γ : Type} (P : γ → Prop) (f : γ → β → γ) :
    ∀ (l : List β) (init : γ), P init → (∀ acc x, x ∈ l → P acc → P (f acc x)) →
      P (l.foldl f init)
| [], _, h, _ => h
| x :: xs, init, h, hstep => by
  refine foldl_invariant P f xs (f init x) (hstep init x (by simp) h) ?_
  intro acc y hy hacc
  exact hstep acc y (by simp [hy]) hacc

section MatcherLemmas

variable {α : Type} [DecidableEq α]

/-- The triple returned by `findLongestMatch` stays inside the window. -/
theorem findLongestMatch_bounds (a b : List α) (alo ahi blo bhi : ℕ)
    (ha : alo ≤ ahi) (hb : blo ≤ bhi) :
    alo ≤ (findLongestMatch a b alo ahi blo bhi).1 ∧
    blo ≤ (findLongestMatch a b alo ahi blo bhi).2.1 ∧
    (findLongestMatch a b alo ahi blo bhi).1 + (findLongestMatch a b alo ahi blo bhi).2.2 ≤ ahi ∧
    (findLongestMatch a b alo ahi blo bhi).2.1 + (findLongestMatch a b alo ahi blo bhi).2.2 ≤ bhi := by
  rw [findLongestMatch_eq_foldl]
  set P : ℕ × ℕ × ℕ → Prop :=
    fun m => alo ≤ m.1 ∧ blo ≤ m.2.1 ∧ m.1 + m.2.2 ≤ ahi ∧ m.2.1 + m.2.2 ≤ bhi with hP
  refine foldl_invariant P _ _ _ ⟨le_refl _, le_refl _, by simpa using ha, by simpa using hb⟩ ?_
  intro acc i hi hacc
  have hi' : alo ≤ i ∧ i < alo + (ahi - alo) := List.mem_range'_1.mp hi
  refine foldl_invariant P _ _ _ hacc ?_
  intro acc2 j hj hacc2
  have hj' : blo ≤ j ∧ j < blo + (bhi - blo) := List.mem_range'_1.mp hj
  by_cases hlt : acc2.2.2 < min (cpl (a.drop i) (b.drop j)) (min (ahi - i) (bhi - j))
  · simp only [hP, if_pos hlt]
    refine ⟨by omega, by omega, ?_, ?_⟩
    · have : min (cpl (a.drop i) (b.drop j)) (min (ahi - i) (bhi - j)) ≤ ahi - i := by omega
      omega
    · have : min (cpl (a.drop i) (b.drop j)) (min (ahi - i) (bhi - j)) ≤ bhi - j := by omega
      omega
  · simpa only [hP, if_neg hlt] using hacc2


theorem BChain_weaken {x y x' y' r s : ℕ} :
    ∀ {L : List (ℕ × ℕ × ℕ)}, x' ≤ x → y' ≤ y → BChain x y r s L → BChain x' y' r s L
| [], hx, hy, h => ⟨le_trans hx h.1, le_trans hy h.2⟩
| blk :: rest, hx, hy, h => ⟨le_trans hx h.1, le_trans hy h.2.1, h.2.2⟩

theorem BChain_append {r s : ℕ} :
    ∀ {L1 L2 : List (ℕ × ℕ × ℕ)} {x y p q : ℕ},
      BChain x y p q L1 → BChain p q r s L2 → BChain x y r s (L1 ++ L2)
| [], L2, x, y, p, q, h1, h2 => by
  simpa using BChain_weaken h1.1 h1.2 h2
| blk :: rest, L2, x, y, p, q, h1, h2 =>
  ⟨h1.1, h1.2.1, BChain_append h1.2.2 h2⟩

/-- The raw matching blocks form a chain inside the window, for every fuel. -/
theorem rawBlocks_chain (a b : List α) :
    ∀ (fuel alo ahi blo bhi : ℕ), alo ≤ ahi → blo ≤ bhi →
      BChain alo blo ahi bhi (rawBlocks a b fuel alo ahi blo bhi)
| 0, alo, ahi, blo, bhi, ha, hb => ⟨ha, hb⟩
| fuel + 1, alo, ahi, blo, bhi, ha, hb => by
  have hm := findLongestMatch_bounds a b alo ahi blo bhi ha hb
  rw [rawBlocks]
  by_cases hz : (findLongestMatch a b alo ahi blo bhi).2.2 = 0
  · simp only [if_pos hz]
    exact ⟨ha, hb⟩
  · simp only [if_neg hz]
    refine BChain_append (p := (findLongestMatch a b alo ahi blo bhi).1)
      (q := (findLongestMatch a b alo ahi blo bhi).2.1) ?_ ?_
    · exact rawBlocks_chain a b fuel alo _ blo _ (by omega) (by omega)
    · exact ⟨le_refl _, le_refl _, rawBlocks_chain a b fuel _ ahi _ bhi (by omega) (by omega)⟩

/-- `mergeScan` preserves the chain property. -/
theorem mergeScan_chain {r s : ℕ} :
    ∀ (L : List (ℕ × ℕ × ℕ)) (cur : ℕ × ℕ × ℕ) (x y : ℕ),
      x ≤ cur.1 → y ≤ cur.2.1 →
      BChain (cur.1 + cur.2.2) (cur.2.1 + cur.2.2) r s L →
      BChain x y r s (mergeScan cur L)
| [], cur, x, y, hx, hy, h => by
  rw [mergeScan]
  have h1 : cur.1 + cur.2.2 ≤ r := h.1
  have h2 : cur.2.1 + cur.2.2 ≤ s := h.2
  by_cases hz : cur.2.2 = 0
  · simp only [if_pos hz]
    exact ⟨by omega, by omega⟩
  · simp only [if_neg hz]
    exact ⟨hx, hy, h⟩
| blk :: rest, cur, x, y, hx, hy, h => by
  rw [mergeScan]
  by_cases hadj : cur.1 + cur.2.2 = blk.1 ∧ cur.2.1 + cur.2.2 = blk.2.1
  · simp only [if_pos hadj]
    refine mergeScan_chain rest _ x y (by simpa using hx) (by simpa using hy) ?_
    have h22 := h.2.2
    simp only
    have e1 : cur.1 + (cur.2.2 + blk.2.2) = blk.1 + blk.2.2 := by omega
    have e2 : cur.2.1 + (cur.2.2 + blk.2.2) = blk.2.1 + blk.2.2 := by omega
    rw [e1, e2]
    exact h22
  · simp only [if_neg hadj]
    by_cases hz : cur.2.2 = 0
    · simp only [if_pos hz]
      have h1 : cur.1 + cur.2.2 ≤ blk.1 := h.1
      have h2 : cur.2.1 + cur.2.2 ≤ blk.2.1 := h.2.1
      refine mergeScan_chain rest blk x y ?_ ?_ h.2.2
      · omega
      · omega
    · simp only [if_neg hz]
      exact ⟨hx, hy, mergeScan_chain rest blk _ _ h.1 h.2.1 h.2.2⟩

/-- The full matching-block list is a chain from `(0,0)` to the sentinel. -/
theorem matchingBlocks_chain (a b : List α) :
    BChain 0 0 a.length b.length (matchingBlocks a b) := by
  unfold matchingBlocks
  refine BChain_append (p := a.length) (q := b.length) ?_ ?_
  · refine mergeScan_chain _ (0, 0, 0) 0 0 (le_refl _) (le_refl _) ?_
    simpa using rawBlocks_chain a b (a.length + b.length + 1) 0 a.length 0 b.length
      (Nat.zero_le _) (Nat.zero_le _)
  · exact ⟨le_refl _, le_refl _, le_refl _, le_refl _⟩

end MatcherLemmas





theorem endA_append (L1 L2 : List (ℕ × ℕ × ℕ)) :
    ∀ i, endA i (L1 ++ L2) = endA (endA i L1) L2 := by
  induction L1 with
  | nil => intro i; rfl
  | cons blk rest ih => intro i; simp [endA, ih]

theorem endA_ge {r s : ℕ} :
    ∀ {L : List (ℕ × ℕ × ℕ)} {x y : ℕ}, BChain x y r s L → x ≤ endA x L
| [], x, y, _ => le_refl _
| blk :: rest, x, y, h => by
  have htail : blk.1 + blk.2.2 ≤ endA (blk.1 + blk.2.2) rest := endA_ge h.2.2
  have hx : x ≤ blk.1 := h.1
  calc x ≤ blk.1 + blk.2.2 := by omega
  _ ≤ endA (blk.1 + blk.2.2) rest := htail
  _ = endA x (blk :: rest) := rfl

theorem endB_ge {r s : ℕ} :
    ∀ {L : List (ℕ × ℕ × ℕ)} {x y : ℕ}, BChain x y r s L → y ≤ endB y L
| [], x, y, _ => le_refl _
| blk :: rest, x, y, h => by
  have htail : blk.2.1 + blk.2.2 ≤ endB (blk.2.1 + blk.2.2) rest := endB_ge h.2.2
  have hy : y ≤ blk.2.1 := h.2.1
  calc y ≤ blk.2.1 + blk.2.2 := by omega
  _ ≤ endB (blk.2.1 + blk.2.2) rest := htail
  _ = endB y (blk :: rest) := rfl

theorem aIndices_append (ops1 ops2 : List Opcode) :
    aIndices (ops1 ++ ops2) = aIndices ops1 ++ aIndices ops2 := by
  simp [aIndices]

theorem bIndices_append (ops1 ops2 : List Opcode) :
    bIndices (ops1 ++ ops2) = bIndices ops1 ++ bIndices ops2 := by
  simp [bIndices]

theorem range'_concat3 (i p k E : ℕ) (h1 : i ≤ p) (h2 : p + k ≤ E) :
    List.range' i (p - i) ++ (List.range' p k ++ List.range' (p + k) (E - (p + k)))
      = List.range' i (E - i) := by
  have e1 : p = i + (p - i) := by omega
  rw [show List.range' p k = List.range' (i + (p - i)) k by rw [← e1]]
  rw [show List.range' (p + k) (E - (p + k)) = List.range' (i + (p - i) + k) (E - (p + k)) by rw [← e1]]
  rw [List.range'_append_1, List.range'_append_1]
  congr 1
  omega

/-- Walking a chained block list, the emitted opcodes cover the `a`-side
index interval from the cursor to the final cursor, each index once and in
order; likewise on the `b` side. -/
theorem opcodesFrom_partition (r s : ℕ) :
    ∀ (L : List (ℕ × ℕ × ℕ)) (i j : ℕ), BChain i j r s L →
      aIndices (opcodesFrom i j L) = List.range' i (endA i L - i) ∧
      bIndices (opcodesFrom i j L) = List.range' j (endB j L - j)
| [], i, j, _ => by
  constructor <;> simp [opcodesFrom, aIndices, bIndices, endA, endB]
| blk :: rest, i, j, h => by
  have hi : i ≤ blk.1 := h.1
  have hj : j ≤ blk.2.1 := h.2.1
  have htail := opcodesFrom_partition r s rest (blk.1 + blk.2.2) (blk.2.1 + blk.2.2) h.2.2
  have hEA : blk.1 + blk.2.2 ≤ endA (blk.1 + blk.2.2) rest := endA_ge h.2.2
  have hEB : blk.2.1 + blk.2.2 ≤ endB (blk.2.1 + blk.2.2) rest := endB_ge h.2.2
  have htagA : aIndices
      (if i < blk.1 ∧ j < blk.2.1 then [⟨DiffTag.replace, i, blk.1, j, blk.2.1⟩]
       else if i < blk.1 then [⟨DiffTag.delete, i, blk.1, j, blk.2.1⟩]
       else if j < blk.2.1 then [⟨DiffTag.insert, i, blk.1, j, blk.2.1⟩]
       else []) = List.range' i (blk.1 - i) := by
    by_cases h1 : i < blk.1 ∧ j < blk.2.1
    · simp [h1, aIndices]
    · by_cases h2 : i < blk.1
      · have h3 : ¬ j < blk.2.1 := fun hh => h1 ⟨h2, hh⟩
        simp [h2, h3, aIndices]
      · have hieq : blk.1 - i = 0 := by omega
        by_cases h3 : j < blk.2.1
        · simp [h1, h2, h3, aIndices, hieq, show i = blk.1 by omega]
        · simp [h1, h2, h3, aIndices, hieq]
  have htagB : bIndices
      (if i < blk.1 ∧ j < blk.2.1 then [⟨DiffTag.replace, i, blk.1, j, blk.2.1⟩]
       else if i < blk.1 then [⟨DiffTag.delete, i, blk.1, j, blk.2.1⟩]
       else if j < blk.2.1 then [⟨DiffTag.insert, i, blk.1, j, blk.2.1⟩]
       else []) = List.range' j (blk.2.1 - j) := by
    by_cases h1 : i < blk.1 ∧ j < blk.2.1
    · simp [h1, bIndices]
    · by_cases h2 : i < blk.1
      · have h3 : ¬ j < blk.2.1 := fun hh => h1 ⟨h2, hh⟩
        have hjeq : blk.2.1 - j = 0 := by omega
        simp [h2, h3, bIndices, hjeq]
      · by_cases h3 : j < blk.2.1
        · simp [h1, h2, h3, bIndices]
        · have hjeq : blk.2.1 - j = 0 := by omega
          simp [h1, h2, h3, bIndices, hjeq]
  have heqA : aIndices
      (if blk.2.2 = 0 then []
       else [⟨DiffTag.equal, blk.1, blk.1 + blk.2.2, blk.2.1, blk.2.1 + blk.2.2⟩])
      = List.range' blk.1 blk.2.2 := by
    by_cases h4 : blk.2.2 = 0
    · simp [h4, aIndices]
    · simp [h4, aIndices]
  have heqB : bIndices
      (if blk.2.2 = 0 then []
       else [⟨DiffTag.equal, blk.1, blk.1 + blk.2.2, blk.2.1, blk.2.1 + blk.2.2⟩])
      = List.range' blk.2.1 blk.2.2 := by
    by_cases h4 : blk.2.2 = 0
    · simp [h4, bIndices]
    · simp [h4, bIndices]
  rw [opcodesFrom]
  constructor
  · rw [aIndices_append, aIndices_append, htagA, heqA, htail.1]
    rw [List.append_assoc]
    rw [show endA i (blk :: rest) = endA (blk.1 + blk.2.2) rest from rfl]
    exact range'_concat3 i blk.1 blk.2.2 _ hi hEA
  · rw [bIndices_append, bIndices_append, htagB, heqB, htail.2]
    rw [List.append_assoc]
    rw [show endB j (blk :: rest) = endB (blk.2.1 + blk.2.2) rest from rfl]
    exact range'_concat3 j blk.2.1 blk.2.2 _ hj hEB

theorem endB_append (L1 L2 : List (ℕ × ℕ × ℕ)) :
    ∀ j, endB j (L1 ++ L2) = endB (endB j L1) L2 := by
  induction L1 with
  | nil => intro j; rfl
  | cons blk rest ih => intro j; simp [endB, ih]

/-- The partition invariant of `difflib`: the opcode ranges of `get_opcodes`
tile `[0, len(a))` and `[0, len(b))` exactly, in order. -/
theorem getOpcodes_partition {α : Type} [DecidableEq α] (a b : List α) :
    aIndices (getOpcodes a b) = List.range a.length ∧
    bIndices (getOpcodes a b) = List.range b.length := by
  have h := opcodesFrom_partition a.length b.length (matchingBlocks a b) 0 0
    (matchingBlocks_chain a b)
  have hA : endA 0 (matchingBlocks a b) = a.length := by
    unfold matchingBlocks
    rw [endA_append]
    simp [endA]
  have hB : endB 0 (matchingBlocks a b) = b.length := by
    unfold matchingBlocks
    rw [endB_append]
    simp [endB]
  unfold getOpcodes
  rw [h.1, h.2, hA, hB]
  rw [List.range_eq_range', List.range_eq_range']
  constructor <;> rfl

/-! ### Structural facts about the matcher on special inputs -/

theorem foldl_fixed {β γ : Type} (init : γ) :
    ∀ (l : List β), l.foldl (fun acc _ => acc) init = init
| [] => rfl
| _ :: xs => foldl_fixed init xs

section MatcherSpecial

variable {α : Type} [DecidableEq α]

theorem rawBlocks_succ (a b : List α) (fuel alo ahi blo bhi : ℕ) :
    rawBlocks a b (fuel + 1) alo ahi blo bhi =
      if (findLongestMatch a b alo ahi blo bhi).2.2 = 0 then []
      else rawBlocks a b fuel alo (findLongestMatch a b alo ahi blo bhi).1
             blo (findLongestMatch a b alo ahi blo bhi).2.1
           ++ (findLongestMatch a b alo ahi blo bhi)
             :: rawBlocks a b fuel
                  ((findLongestMatch a b alo ahi blo bhi).1 + (findLongestMatch a b alo ahi blo bhi).2.2) ahi
                  ((findLongestMatch a b alo ahi blo bhi).2.1 + (findLongestMatch a b alo ahi blo bhi).2.2) bhi := rfl

theorem mergeScan_nil (cur : ℕ × ℕ × ℕ) :
    mergeScan cur [] = if cur.2.2 = 0 then [] else [cur] := rfl

theorem mergeScan_cons (cur blk : ℕ × ℕ × ℕ) (rest : List (ℕ × ℕ × ℕ)) :
    mergeScan cur (blk :: rest) =
      if cur.1 + cur.2.2 = blk.1 ∧ cur.2.1 + cur.2.2 = blk.2.1 then
        mergeScan (cur.1, cur.2.1, cur.2.2 + blk.2.2) rest
      else if cur.2.2 = 0 then mergeScan blk rest
      else cur :: mergeScan blk rest := rfl

theorem opcodesFrom_nil (i j : ℕ) : opcodesFrom i j [] = [] := rfl

theorem opcodesFrom_cons (i j : ℕ) (blk : ℕ × ℕ × ℕ) (rest : List (ℕ × ℕ × ℕ)) :
    opcodesFrom i j (blk :: rest) =
      (if i < blk.1 ∧ j < blk.2.1 then [⟨DiffTag.replace, i, blk.1, j, blk.2.1⟩]
       else if i < blk.1 then [⟨DiffTag.delete, i, blk.1, j, blk.2.1⟩]
       else if j < blk.2.1 then [⟨DiffTag.insert, i, blk.1, j, blk.2.1⟩]
       else [])
      ++ (if blk.2.2 = 0 then [] else
          [⟨DiffTag.equal, blk.1, blk.1 + blk.2.2, blk.2.1, blk.2.1 + blk.2.2⟩])
      ++ opcodesFrom (blk.1 + blk.2.2) (blk.2.1 + blk.2.2) rest := rfl

theorem findLongestMatch_empty_a (a b : List α) (alo blo bhi : ℕ) :
    findLongestMatch a b alo alo blo bhi = (alo, blo, 0) := by
  rw [findLongestMatch_eq_foldl]
  simp [Nat.sub_self]

theorem findLongestMatch_empty_b (a b : List α) (alo ahi blo : ℕ) :
    findLongestMatch a b alo ahi blo blo = (alo, blo, 0) := by
  rw [findLongestMatch_eq_foldl]
  simp only [Nat.sub_self, List.range'_zero, List.foldl_nil]
  exact foldl_fixed _ _

theorem rawBlocks_empty_a (a b : List α) :
    ∀ (fuel alo blo bhi : ℕ), rawBlocks a b fuel alo alo blo bhi = []
| 0, _, _, _ => rfl
| fuel + 1, alo, blo, bhi => by
  rw [rawBlocks_succ, findLongestMatch_empty_a]
  simp

theorem rawBlocks_empty_b (a b : List α) :
    ∀ (fuel alo ahi blo : ℕ), rawBlocks a b fuel alo ahi blo blo = []
| 0, _, _, _ => rfl
| fuel + 1, alo, ahi, blo => by
  rw [rawBlocks_succ, findLongestMatch_empty_b]
  simp

theorem cpl_self : ∀ (l : List α), cpl l l = l.length
| [] => rfl
| x :: xs => by simp [cpl, cpl_self xs]

/-- On two identical sequences the first candidate `(0, 0)` already gives the
full-length match, and nothing can beat it. -/
theorem findLongestMatch_self (l : List α) (hl : l ≠ []) :
    findLongestMatch l l 0 l.length 0 l.length = (0, 0, l.length) := by
  have hn : 0 < l.length := List.length_pos.mpr hl
  rw [findLongestMatch_eq_foldl]
  have hrange : List.range' 0 (l.length - 0) = 0 :: List.range' 1 (l.length - 1) := by
    have e : l.length - 0 = (l.length - 1) + 1 := by omega
    rw [e, List.range'_succ]
  rw [hrange]
  rw [List.foldl_cons, List.foldl_cons]
  have hk0 : min (cpl (l.drop 0) (l.drop 0)) (min (l.length - 0) (l.length - 0)) = l.length := by
    simp [cpl_self]
  rw [hk0]
  rw [if_pos (show ((0:ℕ), (0:ℕ), (0:ℕ)).2.2 < l.length from hn)]
  have hinner : List.foldl (fun best j =>
      if best.2.2 < min (cpl (l.drop 0) (l.drop j)) (min (l.length - 0) (l.length - j))
      then ((0:ℕ), j, min (cpl (l.drop 0) (l.drop j)) (min (l.length - 0) (l.length - j)))
      else best) (0, 0, l.length) (List.range' 1 (l.length - 1)) = (0, 0, l.length) := by
    refine foldl_invariant (fun best => best = (0, 0, l.length)) _ _ _ rfl ?_
    intro acc j hj hacc
    have hj' : 1 ≤ j ∧ j < 1 + (l.length - 1) := List.mem_range'_1.mp hj
    have hk : min (cpl (l.drop 0) (l.drop j)) (min (l.length - 0) (l.length - j))
        ≤ l.length - j :=
      le_trans (min_le_right _ _) (min_le_right _ _)
    rw [hacc]
    rw [if_neg (show ¬ ((0:ℕ), (0:ℕ), l.length).2.2
        < min (cpl (l.drop 0) (l.drop j)) (min (l.length - 0) (l.length - j)) by
      show ¬ l.length < _
      omega)]
  rw [hinner]
  refine foldl_invariant (fun best => best = (0, 0, l.length)) _ _ _ rfl ?_
  intro acc i hi hacc
  have hi' : 1 ≤ i ∧ i < 1 + (l.length - 1) := List.mem_range'_1.mp hi
  refine foldl_invariant (fun best => best = (0, 0, l.length)) _ _ _ hacc ?_
  intro acc2 j hj hacc2
  have hk : min (cpl (l.drop i) (l.drop j)) (min (l.length - i) (l.length - j))
      ≤ l.length - i :=
    le_trans (min_le_right _ _) (min_le_left _ _)
  rw [hacc2]
  rw [if_neg (show ¬ ((0:ℕ), (0:ℕ), l.length).2.2
      < min (cpl (l.drop i) (l.drop j)) (min (l.length - i) (l.length - j)) by
    show ¬ l.length < _
    omega)]

/-- `get_matching_blocks` on two identical non-empty sequences: one full
block plus the sentinel. -/
theorem matchingBlocks_self (l : List α) (hl : l ≠ []) :
    matchingBlocks l l = [(0, 0, l.length), (l.length, l.length, 0)] := by
  have hn : 0 < l.length := List.length_pos.mpr hl
  unfold matchingBlocks
  have hraw : rawBlocks l l (l.length + l.length + 1) 0 l.length 0 l.length
      = [(0, 0, l.length)] := by
    rw [rawBlocks_succ, findLongestMatch_self l hl]
    rw [if_neg (show ¬ ((0:ℕ), (0:ℕ), l.length).2.2 = 0 by
      show ¬ l.length = 0
      omega)]
    simp only [Nat.zero_add]
    rw [rawBlocks_empty_a, rawBlocks_empty_a]
    rfl
  rw [hraw]
  rw [mergeScan_cons]
  rw [if_pos (by constructor <;> rfl)]
  rw [mergeScan_nil]
  rw [if_neg (show ¬ (((0:ℕ), (0:ℕ), (0:ℕ)).1, ((0:ℕ), (0:ℕ), (0:ℕ)).2.1,
      ((0:ℕ), (0:ℕ), (0:ℕ)).2.2 + ((0:ℕ), (0:ℕ), l.length).2.2).2.2 = 0 by
    show ¬ 0 + l.length = 0
    omega)]
  simp [hl]

/-- `get_opcodes` on two identical non-empty sequences is a single `equal`
opcode spanning everything. -/
theorem getOpcodes_self (l : List α) (hl : l ≠ []) :
    getOpcodes l l = [⟨DiffTag.equal, 0, l.length, 0, l.length⟩] := by
  have hn : 0 < l.length := List.length_pos.mpr hl
  unfold getOpcodes
  rw [matchingBlocks_self l hl]
  rw [opcodesFrom_cons]
  rw [opcodesFrom_cons, opcodesFrom_nil]
  simp [hn, hl, Nat.pos_iff_ne_zero]

theorem cpl_disjoint : ∀ (xs ys : List α), (∀ x ∈ xs, x ∉ ys) → cpl xs ys = 0
| [], _, _ => rfl
| _ :: _, [], _ => rfl
| x :: xs, y :: ys, h => by
  rw [cpl]
  rw [if_neg ?_]
  intro hxy
  exact h x (by simp) (by simp [hxy])

theorem findLongestMatch_disjoint (a b : List α) (h : ∀ x ∈ a, x ∉ b)
    (alo ahi blo bhi : ℕ) :
    findLongestMatch a b alo ahi blo bhi = (alo, blo, 0) := by
  rw [findLongestMatch_eq_foldl]
  refine foldl_invariant (fun best => best = (alo, blo, 0)) _ _ _ rfl ?_
  intro acc i _ hacc
  refine foldl_invariant (fun best => best = (alo, blo, 0)) _ _ _ hacc ?_
  intro acc2 j _ hacc2
  have hc : cpl (a.drop i) (b.drop j) = 0 := by
    refine cpl_disjoint _ _ ?_
    intro x hx hxb
    exact h x (List.mem_of_mem_drop hx) (List.mem_of_mem_drop hxb)
  rw [hacc2, hc]
  rw [if_neg (by simp)]

/-- `get_opcodes` on two non-empty sequences with no common element: a single
`replace` opcode spanning everything (never a `delete` followed by an
`insert`). -/
theorem getOpcodes_disjoint (a b : List α) (ha : a ≠ []) (hb : b ≠ [])
    (h : ∀ x ∈ a, x ∉ b) :
    getOpcodes a b = [⟨DiffTag.replace, 0, a.length, 0, b.length⟩] := by
  have hna : 0 < a.length := List.length_pos.mpr ha
  have hnb : 0 < b.length := List.length_pos.mpr hb
  unfold getOpcodes matchingBlocks
  have hraw : rawBlocks a b (a.length + b.length + 1) 0 a.length 0 b.length = [] := by
    rw [rawBlocks_succ, findLongestMatch_disjoint a b h]
    simp
  rw [hraw]
  rw [mergeScan_nil, if_pos rfl]
  rw [List.nil_append]
  rw [opcodesFrom_cons, opcodesFrom_nil]
  simp [hna, hnb, Nat.pos_iff_ne_zero]

/-- `get_opcodes` against an empty `b`: one `delete` opcode (or nothing when
`a` is empty too). -/
theorem getOpcodes_empty_b (a : List α) :
    getOpcodes a ([] : List α)
      = if a = [] then [] else [⟨DiffTag.delete, 0, a.length, 0, 0⟩] := by
  unfold getOpcodes matchingBlocks
  have hraw : rawBlocks a ([] : List α) (a.length + ([] : List α).length + 1)
      0 a.length 0 ([] : List α).length = [] := by
    rw [rawBlocks_succ]
    rw [show (([] : List α).length) = 0 from rfl]
    rw [findLongestMatch_empty_b]
    simp
  rw [hraw]
  rw [mergeScan_nil, if_pos rfl]
  by_cases ha : a = []
  · subst ha
    rw [if_pos rfl]
    rfl
  · have hna : 0 < a.length := List.length_pos.mpr ha
    rw [if_neg ha]
    rw [List.nil_append]
    rw [opcodesFrom_cons, opcodesFrom_nil]
    simp [hna, Nat.pos_iff_ne_zero]

/-- `get_opcodes` against an empty `a`: one `insert` opcode (or nothing when
`b` is empty too). -/
theorem getOpcodes_empty_a (b : List α) :
    getOpcodes ([] : List α) b
      = if b = [] then [] else [⟨DiffTag.insert, 0, 0, 0, b.length⟩] := by
  unfold getOpcodes matchingBlocks
  have hraw : rawBlocks ([] : List α) b (([] : List α).length + b.length + 1)
      0 ([] : List α).length 0 b.length = [] := by
    rw [rawBlocks_succ]
    rw [show (([] : List α).length) = 0 from rfl]
    rw [findLongestMatch_empty_a]
    simp
  rw [hraw]
  rw [mergeScan_nil, if_pos rfl]
  by_cases hb : b = []
  · subst hb
    rw [if_pos rfl]
    rfl
  · have hnb : 0 < b.length := List.length_pos.mpr hb
    rw [if_neg hb]
    rw [List.nil_append]
    rw [opcodesFrom_cons, opcodesFrom_nil]
    simp [hnb, Nat.pos_iff_ne_zero]

theorem matchesTotal_self (l : List α) : matchesTotal l l = l.length := by
  by_cases hl : l = []
  · subst hl
    rfl
  · unfold matchesTotal
    rw [matchingBlocks_self l hl]
    simp

theorem matchesTotal_empty_b (a : List α) : matchesTotal a ([] : List α) = 0 := by
  unfold matchesTotal matchingBlocks
  have hraw : rawBlocks a ([] : List α) (a.length + ([] : List α).length + 1)
      0 a.length 0 ([] : List α).length = [] := by
    rw [rawBlocks_succ]
    rw [show (([] : List α).length) = 0 from rfl]
    rw [findLongestMatch_empty_b]
    simp
  rw [hraw]
  rw [mergeScan_nil, if_pos rfl]
  simp

theorem matchesTotal_empty_a (b : List α) : matchesTotal ([] : List α) b = 0 := by
  unfold matchesTotal matchingBlocks
  have hraw : rawBlocks ([] : List α) b (([] : List α).length + b.length + 1)
      0 ([] : List α).length 0 b.length = [] := by
    rw [rawBlocks_succ]
    rw [show (([] : List α).length) = 0 from rfl]
    rw [findLongestMatch_empty_a]
    simp
  rw [hraw]
  rw [mergeScan_nil, if_pos rfl]
  simp

end MatcherSpecial

/-! ### Relating `splitlines`, `crlfToLf` and `intercalate` -/

theorem intercalate_nil (s : List Char) :
    List.intercalate s ([] : List (List Char)) = [] := rfl

theorem intercalate_single (s l : List Char) :
    List.intercalate s [l] = l := by
  simp [List.intercalate]

theorem intercalate_cons2 (s l1 : List Char) (l2 : List Char) (ls : List (List Char)) :
    List.intercalate s (l1 :: l2 :: ls) = l1 ++ s ++ List.intercalate s (l2 :: ls) := by
  simp [List.intercalate]


theorem splitlines_rn (r : List Char) :
    splitlinesFn ('\r' :: '\n' :: r) = [] :: splitlinesFn r := rfl

theorem splitlines_nl (r : List Char) :
    splitlinesFn ('\n' :: r) = [] :: splitlinesFn r := rfl

theorem splitlines_cr (r : List Char) (h : ∀ r2, r ≠ '\n' :: r2) :
    splitlinesFn ('\r' :: r) = [] :: splitlinesFn r := by
  rw [splitlinesFn.eq_def]
  split <;> try simp_all
  rename_i hne1 hne2 heq
  exact absurd heq.1.symm hne1

theorem splitlines_other (c : Char) (r : List Char) (h1 : c ≠ '\r') (h2 : c ≠ '\n')
    (h3 : ¬ isExoticBreak c = true) :
    splitlinesFn (c :: r) = consLine c (splitlinesFn r) := by
  rw [splitlinesFn.eq_def]
  split <;> simp_all

theorem splitlines_exotic (c : Char) (r : List Char) (h : isExoticBreak c = true) :
    splitlinesFn (c :: r) = [] :: splitlinesFn r := by
  have h1 : c ≠ '\r' := by rintro rfl; exact absurd h (by decide)
  have h2 : c ≠ '\n' := by rintro rfl; exact absurd h (by decide)
  rw [splitlinesFn.eq_def]
  split <;> simp_all

theorem crlf_rn (r : List Char) :
    crlfToLf ('\r' :: '\n' :: r) = '\n' :: crlfToLf r := rfl

theorem crlf_cr (r : List Char) (h : ∀ r2, r ≠ '\n' :: r2) :
    crlfToLf ('\r' :: r) = '\n' :: crlfToLf r := by
  rw [crlfToLf.eq_def]
  split <;> try simp_all
  rename_i hne heq
  exact absurd heq.1.symm hne

theorem crlf_other (c : Char) (r : List Char) (h1 : c ≠ '\r') :
    crlfToLf (c :: r) = c :: crlfToLf r := by
  rw [crlfToLf.eq_def]
  split <;> simp_all

theorem splitlinesFn_ne_nil (c : Char) (r : List Char) : splitlinesFn (c :: r) ≠ [] := by
  by_cases hc1 : c = '\r'
  · subst hc1
    rcases r with _ | ⟨c2, r2⟩
    · simp [splitlines_cr]
    · by_cases hc2 : c2 = '\n'
      · subst hc2
        simp [splitlines_rn]
      · rw [splitlines_cr _ (by intro r3 hcon; injection hcon with e1 e2; exact hc2 e1)]
        simp
  · by_cases hc2 : c = '\n'
    · subst hc2
      simp [splitlines_nl]
    · by_cases hc3 : isExoticBreak c = true
      · rw [splitlines_exotic c r hc3]
        simp
      · rw [splitlines_other c r hc1 hc2 hc3]
        cases splitlinesFn r <;> simp [consLine]

/-- Lines produced by `splitlines` contain no line terminators. -/
theorem splitlinesFn_no_break (t : List Char) :
    ∀ l ∈ splitlinesFn t, '\n' ∉ l ∧ '\r' ∉ l := by
  induction t using splitlinesFn.induct with
  | case1 =>
    intro l hl
    simp [splitlinesFn] at hl
  | case2 r ih =>
    intro l hl
    rw [splitlines_rn] at hl
    rcases List.mem_cons.mp hl with h | h
    · subst h
      simp
    · exact ih l h
  | case3 r hsh ih =>
    intro l hl
    rw [splitlines_cr r (fun r2 hh => hsh r2 hh)] at hl
    rcases List.mem_cons.mp hl with h | h
    · subst h
      simp
    · exact ih l h
  | case4 r ih =>
    intro l hl
    rw [splitlines_nl] at hl
    rcases List.mem_cons.mp hl with h | h
    · subst h
      simp
    · exact ih l h
  | case5 c r hsh hc1 hc2 hex ih =>
    intro l hl
    rw [splitlines_exotic c r hex] at hl
    rcases List.mem_cons.mp hl with h | h
    · subst h
      simp
    · exact ih l h
  | case6 c r hsh hc1 hc2 hex ih =>
    intro l hl
    rw [splitlines_other c r (fun hh => hc1 hh) (fun hh => hc2 hh) hex] at hl
    rcases hsplit : splitlinesFn r with _ | ⟨l0, ls⟩
    · rw [hsplit] at hl
      simp only [consLine, List.mem_singleton] at hl
      subst hl
      constructor
      · simp
        intro hcon
        exact hc2 hcon.symm
      · simp
        intro hcon
        exact hc1 hcon.symm
    · rw [hsplit] at hl
      simp only [consLine] at hl
      rcases List.mem_cons.mp hl with h | h
      · subst h
        have h0 := ih l0 (by rw [hsplit]; simp)
        constructor
        · intro hcon
          rcases List.mem_cons.mp hcon with hh | hh
          · exact hc2 hh.symm
          · exact h0.1 hh
        · intro hcon
          rcases List.mem_cons.mp hcon with hh | hh
          · exact hc1 hh.symm
          · exact h0.2 hh
      · exact ih l (by rw [hsplit]; simp [h])

theorem splitlinesFn_eq_nil_iff (t : List Char) : splitlinesFn t = [] ↔ t = [] := by
  constructor
  · intro h
    rcases t with _ | ⟨c, r⟩
    · rfl
    · exact absurd h (splitlinesFn_ne_nil c r)
  · intro h
    subst h
    rfl

theorem crlf_step_break (r : List Char)
    (ih : crlfToLf r = List.intercalate ['\n'] (splitlinesFn r) ∨
          crlfToLf r = List.intercalate ['\n'] (splitlinesFn r) ++ ['\n']) :
    '\n' :: crlfToLf r = List.intercalate ['\n'] ([] :: splitlinesFn r) ∨
    '\n' :: crlfToLf r = List.intercalate ['\n'] ([] :: splitlinesFn r) ++ ['\n'] := by
  rcases hsub : splitlinesFn r with _ | ⟨l, ls⟩
  · have hr : r = [] := (splitlinesFn_eq_nil_iff r).mp hsub
    subst hr
    right
    rw [intercalate_single]
    rfl
  · rw [hsub] at ih
    rw [intercalate_cons2]
    rcases ih with h | h
    · left
      simp [h]
    · right
      simp [h]

/-- `crlfToLf` of a text equals the newline-join of its `splitlines`, up to
one trailing newline (present exactly when the text ends in a line
terminator). -/
theorem crlf_eq_intercalate_splitlines (t : List Char)
    (hx : ∀ c ∈ t, isExoticBreak c = false) :
    crlfToLf t = List.intercalate ['\n'] (splitlinesFn t) ∨
    crlfToLf t = List.intercalate ['\n'] (splitlinesFn t) ++ ['\n'] := by
  revert hx
  induction t using splitlinesFn.induct with
  | case1 =>
    intro hx
    left
    rfl
  | case2 r ih =>
    intro hx
    rw [crlf_rn, splitlines_rn]
    exact crlf_step_break r (ih (fun c hc => hx c (by simp [hc])))
  | case3 r hsh ih =>
    intro hx
    rw [crlf_cr r (fun r2 hh => hsh r2 hh), splitlines_cr r (fun r2 hh => hsh r2 hh)]
    exact crlf_step_break r (ih (fun c hc => hx c (by simp [hc])))
  | case4 r ih =>
    intro hx
    rw [crlf_other '\n' r (by decide), splitlines_nl]
    exact crlf_step_break r (ih (fun c hc => hx c (by simp [hc])))
  | case5 c r hsh hc1 hc2 hex ih =>
    intro hx
    exact absurd (hx c (by simp)) (by simp [hex])
  | case6 c r hsh hc1 hc2 hex ih =>
    intro hx
    have ihx := ih (fun cc hcc => hx cc (by simp [hcc]))
    rw [crlf_other c r (fun hh => hc1 hh),
        splitlines_other c r (fun hh => hc1 hh) (fun hh => hc2 hh) hex]
    rcases hsub : splitlinesFn r with _ | ⟨l, ls⟩
    · have hr : r = [] := (splitlinesFn_eq_nil_iff r).mp hsub
      subst hr
      left
      rw [show consLine c ([] : List (List Char)) = [[c]] from rfl, intercalate_single]
      rfl
    · rw [hsub] at ihx
      rw [show consLine c (l :: ls) = (c :: l) :: ls from rfl]
      rcases ls with _ | ⟨l2, ls2⟩
      · rw [intercalate_single]
        rw [intercalate_single] at ihx
        rcases ihx with h | h
        · left
          simp [h]
        · right
          simp [h]
      · rw [intercalate_cons2]
        rw [intercalate_cons2] at ihx
        rcases ihx with h | h
        · left
          simp [h]
        · right
          simp [h]

theorem stripNewlines_append_nl (y : List Char) :
    stripNewlines (y ++ ['\n']) = stripNewlines y := by
  unfold stripNewlines
  rw [List.dropWhile_append]
  by_cases hy : (y.dropWhile (· == '\n')).isEmpty
  · rw [if_pos hy]
    have hy' : y.dropWhile (· == '\n') = [] := by
      simpa [List.isEmpty_iff] using hy
    rw [hy']
    rfl
  · rw [if_neg hy]
    rw [List.reverse_append]
    rfl

theorem mem_intercalate_nl (c : Char) (s : Char) :
    ∀ (L : List (List Char)), c ∈ List.intercalate [s] L → c = s ∨ ∃ l ∈ L, c ∈ l
| [] => by
  rw [intercalate_nil]
  simp
| [l] => by
  rw [intercalate_single]
  intro h
  right
  exact ⟨l, by simp, h⟩
| l1 :: l2 :: ls => by
  rw [intercalate_cons2]
  intro h
  rcases List.mem_append.mp h with h1 | h2
  · rcases List.mem_append.mp h1 with h3 | h4
    · right
      exact ⟨l1, by simp, h3⟩
    · left
      simpa using h4
  · rcases mem_intercalate_nl c s (l2 :: ls) h2 with h5 | ⟨l, hl, hcl⟩
    · left
      exact h5
    · right
      exact ⟨l, by simp [hl], hcl⟩

theorem crlf_of_no_cr : ∀ (l : List Char), '\r' ∉ l → crlfToLf l = l
| [], _ => rfl
| c :: r, h => by
  have hc : c ≠ '\r' := by
    intro hcon
    exact h (by simp [hcon])
  rw [crlf_other c r hc]
  rw [crlf_of_no_cr r (fun hcon => h (by simp [hcon]))]

theorem splitOnP_append_sep (p : Char → Bool) (c : Char) (hc : p c = true) :
    ∀ (x : List Char), (x ++ [c]).splitOnP p = x.splitOnP p ++ [[]]
| [] => by
  simp [List.splitOnP_cons, hc]
| x0 :: x' => by
  rw [List.cons_append, List.splitOnP_cons, List.splitOnP_cons]
  by_cases h0 : p x0
  · rw [if_pos h0, if_pos h0]
    rw [splitOnP_append_sep p c hc x']
    simp
  · rw [if_neg h0, if_neg h0]
    rw [splitOnP_append_sep p c hc x']
    rcases hsp : x'.splitOnP p with _ | ⟨a, as⟩
    · exact absurd hsp (List.splitOnP_ne_nil _ x')
    · simp

theorem splitOn_append_nl (x : List Char) :
    (x ++ ['\n']).splitOn '\n' = x.splitOn '\n' ++ [[]] := by
  unfold List.splitOn
  exact splitOnP_append_sep _ '\n' (by simp) x

theorem intercalate_append_nil_line (c : Char) :
    ∀ (L : List (List Char)), L ≠ [] →
      List.intercalate [c] (L ++ [[]]) = List.intercalate [c] L ++ [c]
| [], h => absurd rfl h
| [l], _ => by
  rw [List.cons_append, List.nil_append, intercalate_cons2, intercalate_single, intercalate_single]
  simp
| l1 :: l2 :: ls, _ => by
  have hIH := intercalate_append_nil_line c (l2 :: ls) (by simp)
  rw [show (l1 :: l2 :: ls : List (List Char)) ++ [[]] = l1 :: (l2 :: (ls ++ [[]])) from rfl]
  rw [intercalate_cons2]
  rw [show (l2 :: (ls ++ [[]]) : List (List Char)) = (l2 :: ls) ++ [[]] from rfl]
  rw [hIH, intercalate_cons2]
  simp

/-- Rejoining the `splitlines` of a text with `\n` does not change its
normalization (the only information lost is the flavour of line terminators
and one final terminator, both of which `normalize_text` erases anyway). -/
theorem normalize_intercalate_splitlines (t : List Char)
    (hx : ∀ c ∈ t, isExoticBreak c = false) :
    normalize_text (List.intercalate ['\n'] (splitlinesFn t)) = normalize_text t := by
  by_cases ht : t = []
  · subst ht
    rfl
  have hnb := splitlinesFn_no_break t
  have hLnil : splitlinesFn t ≠ [] := by
    intro hcon
    exact ht ((splitlinesFn_eq_nil_iff t).mp hcon)
  by_cases hEnil : List.intercalate ['\n'] (splitlinesFn t) = []
  · rcases crlf_eq_intercalate_splitlines t hx with hc | hc
    · rw [hEnil] at hc
      rw [hEnil]
      unfold normalize_text
      rw [if_pos rfl, if_neg ht, hc]
      rfl
    · rw [hEnil] at hc
      rw [hEnil]
      unfold normalize_text
      rw [if_pos rfl, if_neg ht, hc]
      rfl
  · have hcrE : crlfToLf (List.intercalate ['\n'] (splitlinesFn t))
        = List.intercalate ['\n'] (splitlinesFn t) := by
      refine crlf_of_no_cr _ ?_
      intro hcon
      rcases mem_intercalate_nl '\r' '\n' (splitlinesFn t) hcon with h1 | ⟨l, hl, hcl⟩
      · exact absurd h1 (by decide)
      · exact (hnb l hl).2 hcl
    have hsplitE : (List.intercalate ['\n'] (splitlinesFn t)).splitOn '\n' = splitlinesFn t :=
      List.splitOn_intercalate (splitlinesFn t) '\n' (fun l hl => (hnb l hl).1) hLnil
    unfold normalize_text
    rw [if_neg hEnil, if_neg ht]
    rw [hcrE, hsplitE]
    rcases crlf_eq_intercalate_splitlines t hx with hc | hc
    · rw [hc, hsplitE]
    · rw [hc]
      rw [splitOn_append_nl, hsplitE]
      rw [List.map_append]
      rw [show List.map pyRstrip [[]] = [([] : List Char)] from rfl]
      rw [intercalate_append_nil_line '\n' _ (by
        intro hcon
        exact hLnil (List.map_eq_nil_iff.mp hcon))]
      rw [stripNewlines_append_nl]

/-! ### `str.split()` is insensitive to line-ending normalization -/

theorem pyWords_ws (c : Char) (r : List Char) (h : isPySpace c = true) :
    pyWords (c :: r) = pyWords r := by
  rw [pyWords.eq_def]
  simp [h]

theorem pyWords_nw_nil (c : Char) (h : ¬ isPySpace c = true) :
    pyWords [c] = [[c]] := by
  rw [pyWords.eq_def]
  simp [h]

theorem pyWords_nw_ws (c c2 : Char) (r : List Char)
    (h : ¬ isPySpace c = true) (h2 : isPySpace c2 = true) :
    pyWords (c :: c2 :: r) = [c] :: pyWords (c2 :: r) := by
  rw [pyWords.eq_def]
  simp [h, h2]

theorem pyWords_nw_nw (c c2 : Char) (r : List Char) (w : List Char) (ws : List (List Char))
    (h : ¬ isPySpace c = true) (h2 : ¬ isPySpace c2 = true)
    (hw : pyWords (c2 :: r) = w :: ws) :
    pyWords (c :: c2 :: r) = (c :: w) :: ws := by
  rw [pyWords.eq_def]
  simp [h, h2, hw]

theorem pyWords_cons_ne_nil (c : Char) (r : List Char) (h : ¬ isPySpace c = true) :
    pyWords (c :: r) ≠ [] := by
  rcases r with _ | ⟨c2, r'⟩
  · rw [pyWords_nw_nil c h]
    simp
  · by_cases h2 : isPySpace c2
    · rw [pyWords_nw_ws c c2 r' h h2]
      simp
    · rcases hw : pyWords (c2 :: r') with _ | ⟨w, ws⟩
      · exact absurd hw (pyWords_cons_ne_nil c2 r' h2)
      · rw [pyWords_nw_nw c c2 r' w ws h h2 hw]
        simp

/-- Appending one trailing whitespace character does not change the token
list. -/
theorem pyWords_append_ws (c : Char) (hc : isPySpace c = true) :
    ∀ (x : List Char), pyWords (x ++ [c]) = pyWords x := by
  intro x
  induction x using pyWords.induct with
  | case1 =>
    rw [List.nil_append, pyWords_ws c [] hc]
  | case2 c2 tail h ih =>
    rw [List.cons_append, pyWords_ws c2 _ h, pyWords_ws c2 _ h]
    exact ih
  | case3 c2 h =>
    rw [List.cons_append, List.nil_append]
    rw [pyWords_nw_ws c2 c [] h hc, pyWords_ws c [] hc]
    rw [pyWords_nw_nil c2 h]
    rfl
  | case4 c2 h c21 tail h21 ih =>
    rw [List.cons_append, List.cons_append]
    rw [pyWords_nw_ws c2 c21 _ h h21, pyWords_nw_ws c2 c21 _ h h21]
    rw [show c21 :: (tail ++ [c]) = (c21 :: tail) ++ [c] from rfl, ih]
  | case5 c2 h c21 tail h21 hnil ih =>
    exact absurd hnil (pyWords_cons_ne_nil c21 tail h21)
  | case6 c2 h c21 tail h21 w ws hw ih =>
    rw [List.cons_append, List.cons_append]
    have hw' : pyWords (c21 :: (tail ++ [c])) = w :: ws := by
      rw [show c21 :: (tail ++ [c]) = (c21 :: tail) ++ [c] from rfl, ih, hw]
    rw [pyWords_nw_nw c2 c21 _ w ws h h21 hw', pyWords_nw_nw c2 c21 tail w ws h h21 hw]

theorem crlf_cr_cons (r' : List Char) : ∃ z, crlfToLf ('\r' :: r') = '\n' :: z := by
  rcases r' with _ | ⟨e, r''⟩
  · exact ⟨[], by rw [crlf_cr [] (by intro r2 h; simp at h)]; rfl⟩
  · by_cases he : e = '\n'
    · subst he
      exact ⟨crlfToLf r'', crlf_rn r''⟩
    · refine ⟨crlfToLf (e :: r''), ?_⟩
      rw [crlf_cr (e :: r'') (by intro r2 hcon; injection hcon with e1 e2; exact he e1)]

/-- `str.split()` commutes with line-ending normalization: every replaced
character is whitespace before and after. -/
theorem pyWords_crlf (t : List Char) : pyWords (crlfToLf t) = pyWords t := by
  induction t using crlfToLf.induct with
  | case1 => rfl
  | case2 r ih =>
    rw [crlf_rn]
    rw [pyWords_ws '\n' _ (by decide), ih]
    rw [pyWords_ws '\r' _ (by decide), pyWords_ws '\n' _ (by decide)]
  | case3 r hsh ih =>
    rw [crlf_cr r (fun r2 hh => hsh r2 hh)]
    rw [pyWords_ws '\n' _ (by decide), ih]
    rw [pyWords_ws '\r' _ (by decide)]
  | case4 c r hsh hc1 ih =>
    rw [crlf_other c r (fun hh => hc1 hh)]
    by_cases hws : isPySpace c
    · rw [pyWords_ws c _ hws, pyWords_ws c _ hws]
      exact ih
    · rcases r with _ | ⟨d, r'⟩
      · rfl
      · by_cases hd : d = '\r'
        · subst hd
          obtain ⟨z, hz⟩ := crlf_cr_cons r'
          rw [hz]
          rw [pyWords_nw_ws c '\n' z hws (by decide)]
          rw [pyWords_nw_ws c '\r' r' hws (by decide)]
          rw [← hz, ih]
        · rw [crlf_other d r' hd]
          by_cases hdws : isPySpace d
          · rw [pyWords_nw_ws c d _ hws hdws, pyWords_nw_ws c d _ hws hdws]
            rw [show d :: crlfToLf r' = crlfToLf (d :: r') from (crlf_other d r' hd).symm, ih]
          · rcases hw : pyWords (d :: r') with _ | ⟨w, ws⟩
            · exact absurd hw (pyWords_cons_ne_nil d r' hdws)
            · have hw2 : pyWords (d :: crlfToLf r') = w :: ws := by
                rw [show d :: crlfToLf r' = crlfToLf (d :: r') from (crlf_other d r' hd).symm, ih, hw]
              rw [pyWords_nw_nw c d _ w ws hws hdws hw2]
              rw [pyWords_nw_nw c d _ w ws hws hdws hw]

/-! ### `remove_attending_review_line` on texts without attestation lines -/

theorem remove_attending_of_kept (t : List Char)
    (h : ∀ l ∈ splitlinesFn t, (!(excludedLines.contains (pyStrip l))) = true) :
    remove_attending_review_line t = List.intercalate ['\n'] (splitlinesFn t) := by
  unfold remove_attending_review_line
  rw [List.filter_eq_self.mpr h]

theorem normalize_remove_of_kept (t : List Char)
    (hx : ∀ c ∈ t, isExoticBreak c = false)
    (h : ∀ l ∈ splitlinesFn t, (!(excludedLines.contains (pyStrip l))) = true) :
    normalize_text (remove_attending_review_line t) = normalize_text t := by
  rw [remove_attending_of_kept t h]
  exact normalize_intercalate_splitlines t hx

theorem pyWords_remove_of_kept (t : List Char)
    (hx : ∀ c ∈ t, isExoticBreak c = false)
    (h : ∀ l ∈ splitlinesFn t, (!(excludedLines.contains (pyStrip l))) = true) :
    pyWords (remove_attending_review_line t) = pyWords t := by
  rw [remove_attending_of_kept t h]
  rcases crlf_eq_intercalate_splitlines t hx with hc | hc
  · rw [← hc, pyWords_crlf]
  · have h2 : pyWords (List.intercalate ['\n'] (splitlinesFn t) ++ ['\n'])
        = pyWords (List.intercalate ['\n'] (splitlinesFn t)) :=
      pyWords_append_ws '\n' (by decide) _
    rw [← h2, ← hc, pyWords_crlf]

/-! ### Evaluation helpers for the change percentage -/

/-- Reduce a percentage claim to an integer computation. -/
theorem calc_pct_eval (r a : List Char) (z : ℤ)
    (h : rheFrac (((((pyWords r).length + (pyWords a).length : ℕ) : ℤ)
          - 2 * (matchesTotal (pyWords r) (pyWords a) : ℤ)) * 10000)
        ((pyWords r).length + (pyWords a).length) = z) :
    calculate_change_percentage r a = (z : ℚ) / 100 := by
  unfold calculate_change_percentage
  rw [h]

theorem rheFrac_zero (d : ℕ) : rheFrac 0 d = 0 := by
  unfold rheFrac
  rw [Int.zero_fdiv]
  have h0 : (2 : ℤ) * (0 - 0 * (d : ℤ)) = 0 := by ring
  rw [h0]
  split_ifs with h1 h2 h3 <;> omega

theorem rheFrac_full (n : ℕ) (hn : 0 < n) : rheFrac ((n : ℤ) * 10000) n = 10000 := by
  unfold rheFrac
  have hne : (n : ℤ) ≠ 0 := by exact_mod_cast Nat.pos_iff_ne_zero.mp hn
  have hf : ((n : ℤ) * 10000).fdiv (n : ℤ) = 10000 := by
    rw [Int.fdiv_eq_ediv _ (by positivity)]
    exact Int.mul_ediv_cancel_left _ hne
  rw [hf]
  have h0 : (2 : ℤ) * ((n : ℤ) * 10000 - 10000 * (n : ℤ)) = 0 := by ring
  rw [h0]
  rw [if_pos (by exact_mod_cast hn)]

/-- Equal token lists give change percentage `0`. -/
theorem calc_pct_self (r a : List Char) (h : pyWords r = pyWords a) :
    calculate_change_percentage r a = 0 := by
  unfold calculate_change_percentage
  rw [h, matchesTotal_self]
  have e : ((((pyWords a).length + (pyWords a).length : ℕ) : ℤ)
      - 2 * ((pyWords a).length : ℤ)) * 10000 = 0 := by
    push_cast
    ring
  rw [e, rheFrac_zero]
  norm_num

/-- An empty attending token list against a non-empty resident token list
gives change percentage `100`. -/
theorem calc_pct_empty_b (r a : List Char) (ha : pyWords a = [])
    (hr : pyWords r ≠ []) :
    calculate_change_percentage r a = 100 := by
  unfold calculate_change_percentage
  rw [ha, matchesTotal_empty_b]
  have hn : 0 < (pyWords r).length := List.length_pos.mpr hr
  simp only [List.length_nil, Nat.add_zero, Nat.cast_zero, mul_zero, sub_zero]
  rw [rheFrac_full _ hn]
  norm_num

/-- An empty resident token list against a non-empty attending token list
gives change percentage `100`. -/
theorem calc_pct_empty_a (r a : List Char) (hr : pyWords r = [])
    (ha : pyWords a ≠ []) :
    calculate_change_percentage r a = 100 := by
  unfold calculate_change_percentage
  rw [hr, matchesTotal_empty_a]
  have hn : 0 < (pyWords a).length := List.length_pos.mpr ha
  simp only [List.length_nil, Nat.zero_add, Nat.cast_zero, mul_zero, sub_zero]
  rw [rheFrac_full _ hn]
  norm_num

/-- Two empty token lists give change percentage `0`. -/
theorem calc_pct_both_empty (r a : List Char) (hr : pyWords r = [])
    (ha : pyWords a = []) :
    calculate_change_percentage r a = 0 := by
  exact calc_pct_self r a (by rw [hr, ha])

/-! ### Renderer-level facts -/

theorem pySlice_full {α : Type} (l : List α) : pySlice l 0 l.length = l := by
  unfold pySlice
  rw [List.drop_zero, Nat.sub_zero, List.take_length]

/-- With an empty attending text the whole diff is delete-rendered resident
paragraphs (and empty when the resident side has no paragraphs). -/
theorem diff_empty_attending (r : List Char) :
    create_diff_by_section r []
      = ((residentParagraphs r).map (fun p => paraDiv (("del").data) (htmlEscape p))).flatten := by
  have hap : attendingParagraphs [] = [] := rfl
  unfold create_diff_by_section sectionOpcodes
  rw [hap]
  rw [getOpcodes_empty_b]
  by_cases hrp : residentParagraphs r = []
  · rw [if_pos hrp, hrp]
    rfl
  · rw [if_neg hrp]
    rw [show List.map (renderOpcode (residentParagraphs r) [])
          [⟨DiffTag.delete, 0, (residentParagraphs r).length, 0, 0⟩]
        = [renderOpcode (residentParagraphs r) [] ⟨DiffTag.delete, 0, (residentParagraphs r).length, 0, 0⟩] from rfl]
    rw [show renderOpcode (residentParagraphs r) [] ⟨DiffTag.delete, 0, (residentParagraphs r).length, 0, 0⟩
        = ((pySlice (residentParagraphs r) 0 (residentParagraphs r).length).map
            (fun p => paraDiv (("del").data) (htmlEscape p))).flatten from rfl]
    rw [pySlice_full]
    simp

/-- With an empty resident text the whole diff is insert-rendered attending
paragraphs. -/
theorem diff_empty_resident (a : List Char) :
    create_diff_by_section [] a
      = ((attendingParagraphs a).map (fun p => paraDiv (("ins").data) (htmlEscape p))).flatten := by
  have hrp : residentParagraphs [] = [] := rfl
  unfold create_diff_by_section sectionOpcodes
  rw [hrp]
  rw [getOpcodes_empty_a]
  by_cases hap : attendingParagraphs a = []
  · rw [if_pos hap, hap]
    rfl
  · rw [if_neg hap]
    rw [show List.map (renderOpcode [] (attendingParagraphs a))
          [⟨DiffTag.insert, 0, 0, 0, (attendingParagraphs a).length⟩]
        = [renderOpcode [] (attendingParagraphs a) ⟨DiffTag.insert, 0, 0, 0, (attendingParagraphs a).length⟩] from rfl]
    rw [show renderOpcode [] (attendingParagraphs a) ⟨DiffTag.insert, 0, 0, 0, (attendingParagraphs a).length⟩
        = ((pySlice (attendingParagraphs a) 0 (attendingParagraphs a).length).map
            (fun p => paraDiv (("ins").data) (htmlEscape p))).flatten from rfl]
    rw [pySlice_full]
    simp

/-- Diffing a text against itself (when it contains no attestation line)
renders every paragraph once, as an `equal` div, from a single `equal`
opcode. -/
theorem diff_self_of_kept (t : List Char)
    (hx : ∀ c ∈ t, isExoticBreak c = false)
    (hkept : ∀ l ∈ splitlinesFn t, (!(excludedLines.contains (pyStrip l))) = true)
    (hne : residentParagraphs t ≠ []) :
    sectionOpcodes t t = [⟨DiffTag.equal, 0, (residentParagraphs t).length, 0, (residentParagraphs t).length⟩] ∧
    create_diff_by_section t t
      = ((residentParagraphs t).map (fun p => paraDiv (("equal").data) (htmlEscape p))).flatten := by
  have hap : attendingParagraphs t = residentParagraphs t := by
    unfold attendingParagraphs residentParagraphs
    rw [normalize_remove_of_kept t hx hkept]
  have hops : sectionOpcodes t t
      = [⟨DiffTag.equal, 0, (residentParagraphs t).length, 0, (residentParagraphs t).length⟩] := by
    unfold sectionOpcodes
    rw [hap]
    exact getOpcodes_self _ hne
  refine ⟨hops, ?_⟩
  unfold create_diff_by_section
  rw [hops, hap]
  rw [show List.map (renderOpcode (residentParagraphs t) (residentParagraphs t))
        [⟨DiffTag.equal, 0, (residentParagraphs t).length, 0, (residentParagraphs t).length⟩]
      = [renderOpcode (residentParagraphs t) (residentParagraphs t)
          ⟨DiffTag.equal, 0, (residentParagraphs t).length, 0, (residentParagraphs t).length⟩] from rfl]
  rw [show renderOpcode (residentParagraphs t) (residentParagraphs t)
        ⟨DiffTag.equal, 0, (residentParagraphs t).length, 0, (residentParagraphs t).length⟩
      = ((pySlice (residentParagraphs t) 0 (residentParagraphs t).length).map
          (fun p => paraDiv (("equal").data) (htmlEscape p))).flatten from rfl]
  rw [pySlice_full]
  simp

/-! ### Tag safety: every `<` in the output starts a fixed template tag -/



theorem tagOk_nil : tagOk [] := by
  intro i hi
  simp at hi

theorem tagOk_of_no_lt {s : List Char} (h : '<' ∉ s) : tagOk s := by
  intro i hi hhead
  exfalso
  rcases hx : s.drop i with _ | ⟨c, cs⟩
  · rw [hx] at hhead
    simp at hhead
  · rw [hx] at hhead
    simp at hhead
    apply h
    refine (List.drop_sublist i s).subset ?_
    rw [hx, hhead]
    simp

theorem tagOk_append {a b : List Char} (ha : tagOk a) (hb : tagOk b) :
    tagOk (a ++ b) := by
  intro i hi hhead
  by_cases hia : i < a.length
  · have hdrop : (a ++ b).drop i = a.drop i ++ b :=
      List.drop_append_of_le_length (le_of_lt hia)
    rw [hdrop] at hhead ⊢
    have hlen : (a.drop i).length = a.length - i := List.length_drop i a
    have hne : a.drop i ≠ [] := by
      intro hcon
      rw [hcon] at hlen
      simp at hlen
      omega
    rcases hx : a.drop i with _ | ⟨c, cs⟩
    · exact absurd hx hne
    · rw [hx] at hhead
      have hc : c = '<' := by
        simpa using hhead
      obtain ⟨u, hu, hpre⟩ := ha i hia (by rw [hx, hc]; rfl)
      exact ⟨u, hu, (hx ▸ hpre).trans (List.prefix_append _ _)⟩
  · have hi' : i - a.length < b.length := by
      rw [List.length_append] at hi
      omega
    have hdrop : (a ++ b).drop i = b.drop (i - a.length) := by
      have hd := @List.drop_append _ a b (i - a.length)
      rw [show a.length + (i - a.length) = i by omega] at hd
      exact hd
    rw [hdrop] at hhead ⊢
    exact hb (i - a.length) hi' hhead

theorem tagOk_flatten : ∀ {L : List (List Char)}, (∀ x ∈ L, tagOk x) → tagOk L.flatten
| [], _ => tagOk_nil
| x :: xs, h => by
  rw [List.flatten_cons]
  exact tagOk_append (h x (by simp)) (tagOk_flatten (fun y hy => h y (by simp [hy])))

theorem escapeChar_no_lt (c : Char) : '<' ∉ escapeChar c := by
  rw [escapeChar.eq_def]
  split
  · decide
  · decide
  · decide
  · decide
  · decide
  · rename_i h1 h2 h3 h4 h5
    simp
    exact fun hcon => h2 hcon.symm

theorem htmlEscape_no_lt (s : List Char) : '<' ∉ htmlEscape s := by
  unfold htmlEscape
  intro hcon
  rw [List.mem_flatten] at hcon
  obtain ⟨x, hx, hcx⟩ := hcon
  rw [List.mem_map] at hx
  obtain ⟨c, _, hc⟩ := hx
  exact escapeChar_no_lt c (hc ▸ hcx)

theorem tagOk_htmlEscape (s : List Char) : tagOk (htmlEscape s) :=
  tagOk_of_no_lt (htmlEscape_no_lt s)

theorem tagOk_div_open : tagOk (("<div class=\"para ").data) := by
  unfold tagOk
  decide

theorem tagOk_div_close : tagOk (("</div>").data) := by
  unfold tagOk
  decide

theorem tagOk_span_open : tagOk (("<span class=\"word ").data) := by
  unfold tagOk
  decide

theorem tagOk_span_close : tagOk (("</span>").data) := by
  unfold tagOk
  decide

theorem tagOk_paraDiv (cls inner : List Char) (hcls : '<' ∉ cls)
    (hinner : tagOk inner) : tagOk (paraDiv cls inner) := by
  unfold paraDiv
  refine tagOk_append (tagOk_append (tagOk_append (tagOk_append tagOk_div_open
    (tagOk_of_no_lt hcls)) (tagOk_of_no_lt (by decide))) hinner) tagOk_div_close

theorem tagOk_wordSpan (cls inner : List Char) (hcls : '<' ∉ cls)
    (hinner : tagOk inner) : tagOk (wordSpan cls inner) := by
  unfold wordSpan
  refine tagOk_append (tagOk_append (tagOk_append (tagOk_append tagOk_span_open
    (tagOk_of_no_lt hcls)) (tagOk_of_no_lt (by decide))) hinner) tagOk_span_close

theorem tagOk_renderWordOp (rw aw : List (List Char)) (op : Opcode) :
    tagOk (renderWordOp rw aw op) := by
  unfold renderWordOp
  rcases op with ⟨tag, a1, a2, b1, b2⟩
  cases tag
  · exact tagOk_htmlEscape _
  · refine tagOk_append (tagOk_append (tagOk_wordSpan _ _ (by decide) (tagOk_htmlEscape _)) ?_)
      (tagOk_wordSpan _ _ (by decide) (tagOk_htmlEscape _))
    exact tagOk_of_no_lt (by decide)
  · exact tagOk_wordSpan _ _ (by decide) (tagOk_htmlEscape _)
  · exact tagOk_wordSpan _ _ (by decide) (tagOk_htmlEscape _)

theorem tagOk_intercalate_space : ∀ (L : List (List Char)), (∀ x ∈ L, tagOk x) →
    tagOk (List.intercalate [' '] L)
| [], _ => tagOk_nil
| [l], h => by
  rw [intercalate_single]
  exact h l (by simp)
| l1 :: l2 :: ls, h => by
  rw [intercalate_cons2]
  refine tagOk_append (tagOk_append (h l1 (by simp)) (tagOk_of_no_lt (by decide))) ?_
  exact tagOk_intercalate_space (l2 :: ls) (fun x hx => h x (by simp at hx ⊢; tauto))

theorem tagOk_renderReplacePair (res att : List (List Char)) (idx : ℕ) :
    tagOk (renderReplacePair res att idx) := by
  unfold renderReplacePair
  by_cases h1 : res.getD idx [] ≠ [] ∧ att.getD idx [] ≠ []
  · rw [if_pos h1]
    by_cases h2 : 5 * matchesTotal (res.getD idx []) (att.getD idx [])
        < (res.getD idx []).length + (att.getD idx []).length
    · rw [if_pos h2]
      exact tagOk_append (tagOk_paraDiv _ _ (by decide) (tagOk_htmlEscape _))
        (tagOk_paraDiv _ _ (by decide) (tagOk_htmlEscape _))
    · rw [if_neg h2]
      refine tagOk_paraDiv _ _ (by decide) ?_
      refine tagOk_intercalate_space _ ?_
      intro x hx
      rw [List.mem_map] at hx
      obtain ⟨op, _, hop⟩ := hx
      exact hop ▸ tagOk_renderWordOp _ _ op
  · rw [if_neg h1]
    by_cases h2 : res.getD idx [] ≠ []
    · rw [if_pos h2]
      exact tagOk_paraDiv _ _ (by decide) (tagOk_htmlEscape _)
    · rw [if_neg h2]
      by_cases h3 : att.getD idx [] ≠ []
      · rw [if_pos h3]
        exact tagOk_paraDiv _ _ (by decide) (tagOk_htmlEscape _)
      · rw [if_neg h3]
        exact tagOk_nil

theorem tagOk_renderOpcode (rp ap : List (List Char)) (op : Opcode) :
    tagOk (renderOpcode rp ap op) := by
  unfold renderOpcode
  rcases op with ⟨tag, a1, a2, b1, b2⟩
  cases tag
  · refine tagOk_flatten ?_
    intro x hx
    rw [List.mem_map] at hx
    obtain ⟨p, _, hp⟩ := hx
    exact hp ▸ tagOk_paraDiv _ _ (by decide) (tagOk_htmlEscape _)
  · refine tagOk_flatten ?_
    intro x hx
    rw [List.mem_map] at hx
    obtain ⟨i, _, hp⟩ := hx
    exact hp ▸ tagOk_renderReplacePair _ _ i
  · refine tagOk_flatten ?_
    intro x hx
    rw [List.mem_map] at hx
    obtain ⟨p, _, hp⟩ := hx
    exact hp ▸ tagOk_paraDiv _ _ (by decide) (tagOk_htmlEscape _)
  · refine tagOk_flatten ?_
    intro x hx
    rw [List.mem_map] at hx
    obtain ⟨p, _, hp⟩ := hx
    exact hp ▸ tagOk_paraDiv _ _ (by decide) (tagOk_htmlEscape _)

theorem tagOk_create_diff (r a : List Char) : tagOk (create_diff_by_section r a) := by
  unfold create_diff_by_section
  refine tagOk_flatten ?_
  intro x hx
  rw [List.mem_map] at hx
  obtain ⟨op, _, hop⟩ := hx
  exact hop ▸ tagOk_renderOpcode _ _ op

/-! ### Further branch characterisations of the replace-run renderer -/

/-- Integer form of `ratio() >= 0.6`. -/
theorem ratioQ_ge_iff {α : Type} [DecidableEq α] (p q : List α) :
    (3 * (p.length + q.length) ≤ 10 * matchesTotal p q) ↔ (3/5 : ℚ) ≤ ratioQ p q := by
  unfold ratioQ
  rcases Nat.eq_zero_or_pos (p.length + q.length) with h | h
  · simp only [h, if_pos rfl]
    constructor
    · intro _
      norm_num
    · intro _
      omega
  · rw [if_neg (by omega)]
    have hT : (0 : ℚ) < (p.length : ℚ) + (q.length : ℚ) := by
      have h' : (0 : ℚ) < ((p.length + q.length : ℕ) : ℚ) := by exact_mod_cast h
      push_cast at h'
      linarith
    rw [div_le_div_iff (by norm_num : (0:ℚ) < 5) hT]
    constructor
    · intro hle
      have h5 : ((3 * (p.length + q.length) : ℕ) : ℚ) ≤ ((10 * matchesTotal p q : ℕ) : ℚ) := by
        exact_mod_cast hle
      push_cast at h5 ⊢
      nlinarith
    · intro hle
      have h5 : ((3 * (p.length + q.length) : ℕ) : ℚ) ≤ ((10 * matchesTotal p q : ℕ) : ℚ) := by
        push_cast
        nlinarith
      exact_mod_cast h5

/-- Both paragraphs of a positional pair present, character-level similarity
below `0.4`: the pair renders as a whole-paragraph delete div followed by a
whole-paragraph insert div, with no word spans. -/
theorem renderReplacePair_low (res att : List (List Char)) (idx : ℕ)
    (h1 : res.getD idx [] ≠ []) (h2 : att.getD idx [] ≠ [])
    (h3 : ratioQ (res.getD idx []) (att.getD idx []) < 2/5) :
    renderReplacePair res att idx
      = paraDiv (("del").data) (htmlEscape (res.getD idx []))
        ++ paraDiv (("ins").data) (htmlEscape (att.getD idx [])) := by
  unfold renderReplacePair
  rw [if_pos ⟨h1, h2⟩, if_pos ((similarityGate_iff _ _).mpr h3)]

/-- Excess paragraph on the resident side: pure delete div. -/
theorem renderReplacePair_res_only (res att : List (List Char)) (idx : ℕ)
    (h1 : res.getD idx [] ≠ []) (h2 : att.getD idx [] = []) :
    renderReplacePair res att idx
      = paraDiv (("del").data) (htmlEscape (res.getD idx [])) := by
  unfold renderReplacePair
  rw [if_neg (fun hc => hc.2 h2), if_pos h1]

/-- Excess paragraph on the attending side: pure insert div. -/
theorem renderReplacePair_att_only (res att : List (List Char)) (idx : ℕ)
    (h1 : res.getD idx [] = []) (h2 : att.getD idx [] ≠ []) :
    renderReplacePair res att idx
      = paraDiv (("ins").data) (htmlEscape (att.getD idx [])) := by
  unfold renderReplacePair
  rw [if_neg (fun hc => hc.1 h1), if_neg (fun hc => hc h1), if_pos h2]

/-! ### Arbitrarily long inputs are rendered in full (no size bound) -/

theorem dropWhile_replicate_false (p : Char → Bool) (c : Char) (hp : p c = false) (n : ℕ) :
    List.dropWhile p (List.replicate n c) = List.replicate n c := by
  cases n with
  | zero => rfl
  | succ m =>
      rw [List.replicate_succ]
      rw [List.dropWhile_cons_of_neg (by simp [hp])]

theorem splitOn_replicate_a (n : ℕ) :
    (List.replicate n 'a').splitOn '\n' = [List.replicate n 'a'] := by
  unfold List.splitOn
  apply List.splitOnP_eq_single
  intro x hx
  rw [List.mem_replicate] at hx
  simp [hx.2]

theorem pyRstrip_replicate_a (n : ℕ) :
    pyRstrip (List.replicate n 'a') = List.replicate n 'a' := by
  unfold pyRstrip
  rw [List.reverse_replicate, dropWhile_replicate_false _ _ (by decide), List.reverse_replicate]

theorem pyStrip_replicate_a (n : ℕ) :
    pyStrip (List.replicate n 'a') = List.replicate n 'a' := by
  unfold pyStrip
  rw [dropWhile_replicate_false _ _ (by decide), pyRstrip_replicate_a]

theorem stripNewlines_replicate_a (n : ℕ) :
    stripNewlines (List.replicate n 'a') = List.replicate n 'a' := by
  unfold stripNewlines
  rw [dropWhile_replicate_false _ _ (by decide), List.reverse_replicate,
    dropWhile_replicate_false _ _ (by decide), List.reverse_replicate]

theorem normalize_replicate_a (n : ℕ) :
    normalize_text (List.replicate (n+1) 'a') = List.replicate (n+1) 'a' := by
  unfold normalize_text
  rw [if_neg (by simp)]
  rw [crlf_of_no_cr _ (by simp [List.mem_replicate]), splitOn_replicate_a]
  rw [List.map_cons, List.map_nil, pyRstrip_replicate_a, intercalate_single,
    stripNewlines_replicate_a]

theorem wsOnly_replicate_a (n : ℕ) : wsOnly (List.replicate (n+1) 'a') = false := by
  unfold wsOnly
  rw [List.replicate_succ, List.all_cons]
  rw [show isPySpace 'a' = false from by decide]
  rfl

theorem residentParagraphs_replicate_a (n : ℕ) :
    residentParagraphs (List.replicate (n+1) 'a') = [List.replicate (n+1) 'a'] := by
  unfold residentParagraphs
  rw [normalize_replicate_a]
  unfold split_into_paragraphs
  rw [splitOn_replicate_a]
  have hlg : lineGroups [List.replicate (n+1) 'a'] = [[List.replicate (n+1) 'a']] := by
    unfold lineGroups
    rw [if_neg (by simp [wsOnly_replicate_a])]
  rw [hlg, List.map_cons, List.map_nil, intercalate_single, pyStrip_replicate_a,
    List.filter_cons]
  rw [if_pos (by simp)]
  rfl

theorem htmlEscape_replicate_a (n : ℕ) :
    htmlEscape (List.replicate n 'a') = List.replicate n 'a' := by
  induction n with
  | zero => rfl
  | succ m ih =>
      rw [List.replicate_succ]
      unfold htmlEscape at ih ⊢
      rw [List.map_cons, List.flatten_cons, ih]
      rfl

theorem diff_replicate_a (n : ℕ) :
    create_diff_by_section (List.replicate (n+1) 'a') []
      = paraDiv (("del").data) (List.replicate (n+1) 'a') := by
  rw [diff_empty_attending, residentParagraphs_replicate_a]
  rw [List.map_cons, List.map_nil, List.flatten_cons, List.flatten_nil, List.append_nil,
    htmlEscape_replicate_a]

/-! ### The claims -/

/-- C1: for every pair of input texts, the paragraph-level opcode list of
`create_diff_by_section` exactly partitions both paragraph sequences: the
`a`-ranges concatenated in order are `[0, len(resident_paragraphs))`, each
index exactly once, and likewise the `b`-ranges for the attending paragraphs
(monotonicity is immediate from equality with `List.range`). -/
theorem claim_C1_opcode_partition (r a : List Char) :
    aIndices (sectionOpcodes r a) = List.range (residentParagraphs r).length ∧
    bIndices (sectionOpcodes r a) = List.range (attendingParagraphs a).length := by
  unfold sectionOpcodes
  exact getOpcodes_partition _ _

/-- C2 (counterexample): two fully disjoint one-paragraph texts produce a
single Replace opcode — not a Delete followed by an Insert as claimed. -/
theorem claim_C2_counterexample :
    residentParagraphs (("A").data) = [("A").data] ∧
    attendingParagraphs (("B").data) = [("B").data] ∧
    sectionOpcodes (("A").data) (("B").data) = [⟨DiffTag.replace, 0, 1, 0, 1⟩] := by
  exact ⟨by decide, by decide, by decide⟩

/-- C2 (amended): identical nonempty paragraph sequences yield exactly one
Equal opcode spanning everything, and fully disjoint nonempty sequences yield
exactly one Replace opcode spanning everything (never a Delete plus an
Insert). -/
theorem claim_C2_degenerate_opcodes (a b : List (List Char))
    (ha : a ≠ []) (hb : b ≠ []) (hd : ∀ x ∈ a, x ∉ b) :
    getOpcodes a a = [⟨DiffTag.equal, 0, a.length, 0, a.length⟩] ∧
    getOpcodes a b = [⟨DiffTag.replace, 0, a.length, 0, b.length⟩] :=
  ⟨getOpcodes_self a ha, getOpcodes_disjoint a b ha hb hd⟩

/-- Witness for C2 at the one-paragraph sequences `[['A']]` and `[['B']]`. -/
theorem claim_C2_witness :
    getOpcodes [("A").data] [("A").data] = [⟨DiffTag.equal, 0, 1, 0, 1⟩] ∧
    getOpcodes [("A").data] [("B").data] = [⟨DiffTag.replace, 0, 1, 0, 1⟩] := by
  have h := claim_C2_degenerate_opcodes [("A").data] [("B").data]
    (by decide) (by decide) (by decide)
  exact ⟨h.1, h.2⟩

set_option maxRecDepth 100000 in
set_option maxHeartbeats 40000000 in
/-- C3 (counterexample): in Scenario E both cross-pairs score at least `0.6`,
yet the output is not the content-paired two-Replace rendering: there is no
greedy content-based aligner in the code. -/
theorem claim_C3_counterexample :
    (3/5 : ℚ) ≤ ratioQ (pyWords (("The heart is normal.").data))
        (pyWords (("The heart is enlarged.").data)) ∧
    (3/5 : ℚ) ≤ ratioQ (pyWords (("No pleural effusion.").data))
        (pyWords (("No pleural effusions.").data)) ∧
    create_diff_by_section (("The heart is normal.\n\nNo pleural effusion.").data)
        (("No pleural effusions.\n\nThe heart is enlarged.").data)
      ≠ renderReplaceRun
          [("The heart is normal.").data, ("No pleural effusion.").data]
          [("The heart is enlarged.").data, ("No pleural effusions.").data] :=
  ⟨(ratioQ_ge_iff (pyWords (("The heart is normal.").data))
      (pyWords (("The heart is enlarged.").data))).mp (by decide),
   (ratioQ_ge_iff (pyWords (("No pleural effusion.").data))
      (pyWords (("No pleural effusions.").data))).mp (by decide),
   by decide⟩

set_option maxRecDepth 100000 in
set_option maxHeartbeats 40000000 in
/-- C3 (amended): pairing inside a Replace run is positional, not
content-based: in Scenario E the resident paragraphs `[A, B]` are paired
index-by-index with the attending paragraphs `[B', A']`, and since both
positional pairs fall below the `0.4` character-similarity gate the output is
four whole-paragraph divs `del A, ins B', del B, ins A'` — not two Replace
blocks pairing `A` with `A'` and `B` with `B'`. -/
theorem claim_C3_positional_pairing :
    create_diff_by_section (("The heart is normal.\n\nNo pleural effusion.").data)
        (("No pleural effusions.\n\nThe heart is enlarged.").data)
      = renderReplaceRun
          [("The heart is normal.").data, ("No pleural effusion.").data]
          [("No pleural effusions.").data, ("The heart is enlarged.").data] ∧
    create_diff_by_section (("The heart is normal.\n\nNo pleural effusion.").data)
        (("No pleural effusions.\n\nThe heart is enlarged.").data)
      = paraDiv (("del").data) (("The heart is normal.").data)
        ++ paraDiv (("ins").data) (("No pleural effusions.").data)
        ++ paraDiv (("del").data) (("No pleural effusion.").data)
        ++ paraDiv (("ins").data) (("The heart is enlarged.").data) :=
  ⟨by decide, by decide⟩

set_option maxRecDepth 100000 in
set_option maxHeartbeats 4000000 in
/-- C4 (counterexample): when the text is the attestation literal itself,
self-diff is a single whole-paragraph Delete div (the attending copy is
filtered away, the resident copy is not) and the case change percentage is
100, not 0. -/
theorem claim_C4_counterexample :
    create_diff_by_section (excludedLines.getD 0 []) (excludedLines.getD 0 [])
      = paraDiv (("del").data) (excludedLines.getD 0 []) ∧
    case_change_percentage (excludedLines.getD 0 []) (excludedLines.getD 0 []) = 100 := by
  constructor
  · decide
  · show calculate_change_percentage _ (remove_attending_review_line _) = 100
    rw [calc_pct_eval _ _ 10000 (by decide)]
    norm_num

/-- C4 (amended): for every text that contains no exotic line-boundary
character (`\x0b`, `\x0c`, `\x1c`-`\x1e`, U+0085, U+2028/9 — across which
`str.splitlines` and the newline-based paragraph splitter genuinely disagree,
so self-diff is not an identity there), none of whose lines strips to an
attestation literal, and with at least one nonempty paragraph, diffing the
text against itself yields exactly one Equal opcode spanning everything, the
output is the row of equal-divs of its paragraphs, and the case change
percentage is 0. -/
theorem claim_C4_idempotence (t : List Char)
    (hx : ∀ c ∈ t, isExoticBreak c = false)
    (hkept : ∀ l ∈ splitlinesFn t, (!(excludedLines.contains (pyStrip l))) = true)
    (hne : residentParagraphs t ≠ []) :
    sectionOpcodes t t
      = [⟨DiffTag.equal, 0, (residentParagraphs t).length, 0, (residentParagraphs t).length⟩] ∧
    create_diff_by_section t t
      = ((residentParagraphs t).map (fun p => paraDiv (("equal").data) (htmlEscape p))).flatten ∧
    case_change_percentage t t = 0 := by
  obtain ⟨h1, h2⟩ := diff_self_of_kept t hx hkept hne
  refine ⟨h1, h2, ?_⟩
  show calculate_change_percentage t (remove_attending_review_line t) = 0
  exact calc_pct_self t _ (pyWords_remove_of_kept t hx hkept).symm

/-- Witness for C4 at the text `"Findings stable."`. -/
theorem claim_C4_witness :
    sectionOpcodes (("Findings stable.").data) (("Findings stable.").data)
      = [⟨DiffTag.equal, 0, (residentParagraphs (("Findings stable.").data)).length, 0,
          (residentParagraphs (("Findings stable.").data)).length⟩] ∧
    create_diff_by_section (("Findings stable.").data) (("Findings stable.").data)
      = ((residentParagraphs (("Findings stable.").data)).map
          (fun p => paraDiv (("equal").data) (htmlEscape p))).flatten ∧
    case_change_percentage (("Findings stable.").data) (("Findings stable.").data) = 0 :=
  claim_C4_idempotence (("Findings stable.").data) (by decide) (by decide) (by decide)

/-- C5 (counterexample): with resident `" "` (nonempty) and attending empty —
exactly one side the empty text — the case change percentage is 0, not 100:
the percentage tracks token lists, not text emptiness. -/
theorem claim_C5_counterexample :
    ((" ").data ≠ ([] : List Char)) ∧ case_change_percentage ((" ").data) [] = 0 := by
  refine ⟨by decide, ?_⟩
  show calculate_change_percentage _ (remove_attending_review_line []) = 0
  exact calc_pct_both_empty _ _ (by decide) (by decide)

set_option maxRecDepth 100000 in
/-- C5 (amended): an empty attending (resp. resident) text renders as
Delete-only (resp. Insert-only) divs, and both sides empty render nothing;
the case change percentage is 100 exactly when one side's token list is empty
and the other's is not, and 0 whenever both token lists are empty (so a
whitespace-only but nonempty side also gives 0); Scenario D holds: attending
empty against resident `"Findings normal."` gives a single Delete div and
percentage 100. -/
theorem claim_C5_empty_inputs :
    (∀ r, create_diff_by_section r []
        = ((residentParagraphs r).map (fun p => paraDiv (("del").data) (htmlEscape p))).flatten) ∧
    (∀ a, create_diff_by_section [] a
        = ((attendingParagraphs a).map (fun p => paraDiv (("ins").data) (htmlEscape p))).flatten) ∧
    (∀ r, pyWords r ≠ [] → case_change_percentage r [] = 100) ∧
    (∀ a, pyWords (remove_attending_review_line a) ≠ [] → case_change_percentage [] a = 100) ∧
    (∀ r a, pyWords r = [] → pyWords (remove_attending_review_line a) = [] →
        case_change_percentage r a = 0) ∧
    create_diff_by_section (("Findings normal.").data) []
      = paraDiv (("del").data) (("Findings normal.").data) ∧
    case_change_percentage (("Findings normal.").data) [] = 100 := by
  refine ⟨fun r => diff_empty_attending r, fun a => diff_empty_resident a, ?_, ?_, ?_,
    by decide, ?_⟩
  · intro r hr
    show calculate_change_percentage r (remove_attending_review_line []) = 100
    exact calc_pct_empty_b r _ (by decide) hr
  · intro a ha
    show calculate_change_percentage [] (remove_attending_review_line a) = 100
    exact calc_pct_empty_a [] _ (by decide) ha
  · intro r a hr ha
    show calculate_change_percentage r (remove_attending_review_line a) = 0
    exact calc_pct_both_empty r _ hr ha
  · show calculate_change_percentage _ (remove_attending_review_line []) = 100
    rw [calc_pct_eval _ _ 10000 (by decide)]
    norm_num

/-- Witness for C5: nonempty resident `"x"` against empty attending gives
percentage 100, and empty resident against `"y"` gives the Insert-only
rendering. -/
theorem claim_C5_witness :
    case_change_percentage (("x").data) [] = 100 ∧
    create_diff_by_section [] (("y").data)
      = ((attendingParagraphs (("y").data)).map
          (fun p => paraDiv (("ins").data) (htmlEscape p))).flatten :=
  ⟨claim_C5_empty_inputs.2.2.1 (("x").data) (by decide),
   claim_C5_empty_inputs.2.1 (("y").data)⟩

set_option maxRecDepth 100000 in
set_option maxHeartbeats 40000000 in
/-- C6: Scenario A: resident `"No pneumothorax."` against attending
`"Small right pneumothorax."` yields one Replace block whose word-level
opcodes mark `"No"` as deleted and `"Small right"` as inserted (one replace
opcode) and `"pneumothorax."` as equal, and the change percentage is 60,
strictly greater than 0. -/
theorem claim_C6_scenario_A :
    create_diff_by_section (("No pneumothorax.").data) (("Small right pneumothorax.").data)
      = ("<div class=\"para rep\"><span class=\"word del\">No</span> <span class=\"word ins\">Small right</span> pneumothorax.</div>").data ∧
    getOpcodes (pyWords (("No pneumothorax.").data))
        (pyWords (("Small right pneumothorax.").data))
      = [⟨DiffTag.replace, 0, 1, 0, 2⟩, ⟨DiffTag.equal, 1, 2, 2, 3⟩] ∧
    calculate_change_percentage (("No pneumothorax.").data)
        (("Small right pneumothorax.").data) = 60 ∧
    0 < calculate_change_percentage (("No pneumothorax.").data)
        (("Small right pneumothorax.").data) := by
  have hp : calculate_change_percentage (("No pneumothorax.").data)
      (("Small right pneumothorax.").data) = 60 := by
    rw [calc_pct_eval _ _ 6000 (by decide)]
    norm_num
  exact ⟨by decide, by decide, hp, by rw [hp]; norm_num⟩

/-- C7 (counterexample): a 500-character input is processed in full — the
entire input reappears in the rendered output — rather than being rejected
with an "input too large" result; no size bound exists in the code. -/
theorem claim_C7_counterexample :
    create_diff_by_section (List.replicate 500 'a') []
      = paraDiv (("del").data) (List.replicate 500 'a') :=
  diff_replicate_a 499

/-- C7 (amended): there is no size bound and no truncation: an input of any
length `n + 1` is rendered in full, with the whole input inside the output
div and the output length growing linearly with the input length. -/
theorem claim_C7_no_size_bound (n : ℕ) :
    create_diff_by_section (List.replicate (n+1) 'a') []
      = paraDiv (("del").data) (List.replicate (n+1) 'a') ∧
    (create_diff_by_section (List.replicate (n+1) 'a') []).length = n + 29 := by
  have h := diff_replicate_a n
  refine ⟨h, ?_⟩
  have e1 : (("<div class=\"para ").data).length = 17 := rfl
  have e2 : ((("del")).data).length = 3 := rfl
  have e3 : (("\">").data).length = 2 := rfl
  have e4 : (("</div>").data).length = 6 := rfl
  rw [h]
  unfold paraDiv
  repeat rw [List.length_append]
  rw [List.length_replicate, e1, e2, e3, e4]
  omega

set_option maxRecDepth 100000 in
set_option maxHeartbeats 40000000 in
/-- C8: boilerplate-line removal applies only to the attending text, in both
the diff and the metric: `remove_attending_review_line` drops exactly the
lines whose stripped content equals one of the two hard-coded attestation
literals; `create_diff_by_section` passes only the attending text through it
while the resident text reaches the diff unfiltered, and the case percentage
filters only the attending side.  Concretely: the second attestation literal
diffed against itself leaves a resident-side Delete div; an attending text
`"x\n" + literal` equals the resident `"x"` after filtering; and the literal
against itself scores 0 as a raw percentage but 100 as a case percentage. -/
theorem claim_C8_attending_only_filter :
    (∀ a, remove_attending_review_line a
        = List.intercalate ['\n']
            ((splitlinesFn a).filter (fun l => !(excludedLines.contains (pyStrip l))))) ∧
    (∀ r a, create_diff_by_section r a
        = ((getOpcodes (split_into_paragraphs (normalize_text r))
              (split_into_paragraphs (normalize_text (remove_attending_review_line a)))).map
            (renderOpcode (split_into_paragraphs (normalize_text r))
              (split_into_paragraphs (normalize_text (remove_attending_review_line a))))).flatten) ∧
    (∀ r a, case_change_percentage r a
        = calculate_change_percentage r (remove_attending_review_line a)) ∧
    create_diff_by_section (("x").data) ((("x\n").data) ++ excludedLines.getD 0 [])
      = paraDiv (("equal").data) (("x").data) ∧
    create_diff_by_section (excludedLines.getD 1 []) (excludedLines.getD 1 [])
      = paraDiv (("del").data) (excludedLines.getD 1 []) ∧
    calculate_change_percentage (excludedLines.getD 1 []) (excludedLines.getD 1 []) = 0 ∧
    case_change_percentage (excludedLines.getD 1 []) (excludedLines.getD 1 []) = 100 := by
  refine ⟨fun a => rfl, fun r a => rfl, fun r a => rfl, by decide, by decide,
    calc_pct_self _ _ rfl, ?_⟩
  show calculate_change_percentage _ (remove_attending_review_line _) = 100
  rw [calc_pct_eval _ _ 10000 (by decide)]
  norm_num

set_option maxRecDepth 100000 in
/-- C9: inside a Replace opcode the pairing is positional (index `i` with
index `i`, over `max` of the two run lengths); a positional pair gets the
whole-paragraph Delete div plus Insert div (no word spans) exactly when its
character-level ratio is below 0.4, and excess paragraphs on the longer side
render as pure Delete or Insert divs; concretely, the dissimilar pair
`"abc"`/`"xyz"` (ratio 0) renders with no `<span` at all. -/
theorem claim_C9_replace_run :
    (∀ res att, renderReplaceRun res att
        = ((List.range (max res.length att.length)).map (renderReplacePair res att)).flatten) ∧
    (∀ res att idx, res.getD idx [] ≠ [] → att.getD idx [] ≠ [] →
        ratioQ (res.getD idx []) (att.getD idx []) < 2/5 →
        renderReplacePair res att idx
          = paraDiv (("del").data) (htmlEscape (res.getD idx []))
            ++ paraDiv (("ins").data) (htmlEscape (att.getD idx []))) ∧
    (∀ res att idx, res.getD idx [] ≠ [] → att.getD idx [] = [] →
        renderReplacePair res att idx
          = paraDiv (("del").data) (htmlEscape (res.getD idx []))) ∧
    (∀ res att idx, res.getD idx [] = [] → att.getD idx [] ≠ [] →
        renderReplacePair res att idx
          = paraDiv (("ins").data) (htmlEscape (att.getD idx []))) ∧
    ratioQ (("abc").data) (("xyz").data) < 2/5 ∧
    ¬ (("<span").data <:+: renderReplacePair [("abc").data] [("xyz").data] 0) :=
  ⟨fun _ _ => rfl,
   fun res att idx => renderReplacePair_low res att idx,
   fun res att idx => renderReplacePair_res_only res att idx,
   fun res att idx => renderReplacePair_att_only res att idx,
   (similarityGate_iff (("abc").data) (("xyz").data)).mp (by decide),
   by decide⟩

/-- Witness for C9: the dissimilar pair `"abc"`/`"xyz"` renders as a
whole-paragraph Delete div plus Insert div. -/
theorem claim_C9_witness :
    renderReplacePair [("abc").data] [("xyz").data] 0
      = paraDiv (("del").data) (htmlEscape (("abc").data))
        ++ paraDiv (("ins").data) (htmlEscape (("xyz").data)) :=
  claim_C9_replace_run.2.1 [("abc").data] [("xyz").data] 0 (by decide) (by decide)
    ((similarityGate_iff (("abc").data) (("xyz").data)).mp (by decide))

/-- C10: every input fragment is HTML-escaped before being embedded, so each
`<` in the output of `create_diff_by_section` begins one of the four fixed
wrapper tags `<div `, `</div>`, `<span `, `</span>`: no substring of the
inputs can introduce additional markup. -/
theorem claim_C10_tag_safety (r a : List Char) : tagOk (create_diff_by_section r a) :=
  tagOk_create_diff r a

set_option maxRecDepth 100000 in
/-- Witness for C10 at concrete inputs: the output's first character is `<`
and is indeed the start of a fixed tag opening. -/
theorem claim_C10_witness :
    ∃ u ∈ tagOpenings, u <+: (create_diff_by_section (("a").data) (("b").data)).drop 0 :=
  claim_C10_tag_safety (("a").data) (("b").data) 0 (by decide) (by decide)
